import Mathlib

/-!
Verification development for the spatial layout and group-boundary meshing
engine of the network-visualization repository.

Part 1 embeds `GraphBuilder.calculateGridPositions` from
`src/src/metadata-display.js` (the grouped grid positioner), together with
the membership-assignment step of `buildFromElements`.

Part 2 embeds the voxel boundary builder and collinear edge merger from the
`GroupWireframeManager.update` method (`src/unnamed/part_002`).

All machine arithmetic in the source is JavaScript number arithmetic; on the
integer values these algorithms actually manipulate (grid cells, voxel
coordinates, multiples of the 20-unit half-voxel) every operation is exact,
so the embedding uses `Int`. Duplicate node identifiers are assumed absent,
as required by the data model (identifiers are unique).
-/

namespace NetViz

/-- A graph node as seen by the positioner: its id and its ordered list of
group ids (assigned from the group elements by `buildFromElements`). -/
structure GNode where
  id : String
  groups : List String
deriving DecidableEq, Repr

/-- An edge record; inputs to the positioner are pre-filtered so that both
endpoints reference existing nodes. -/
structure GLink where
  source : String
  target : String
deriving DecidableEq, Repr

/-- A group element: its id and its ordered member-id list
(the `node-ids` attribute). -/
structure GGroup where
  id : String
  nodeIds : List String
deriving DecidableEq, Repr

/-- Axis-aligned grid-space bounds of a group, as tracked by
`updateGroupBounds`. -/
structure GBounds where
  minX : Int
  maxX : Int
  minY : Int
  maxY : Int
deriving DecidableEq, Repr

/-- The mutable state threaded through `calculateGridPositions`:
`occupied` mirrors `occupiedPositions`, `pos` records each node's assigned
grid cell (`node.gridX`, `node.gridY`), `bounds` mirrors `groupBounds`,
`placedIds` mirrors `placedNodes`, `groupCells` is a ghost log of every
`updateGroupBounds` call (group id and cell), and `usedFallback` is a ghost
flag set exactly when a placement goes through the spacing-ignoring
`findNearestAvailablePosition` fallback. -/
structure PosState where
  occupied : List (Int × Int)
  pos : List (String × (Int × Int))
  bounds : List (String × GBounds)
  placedIds : List String
  groupCells : List (String × (Int × Int))
  usedFallback : Bool
deriving DecidableEq, Repr

def initState : PosState := ⟨[], [], [], [], [], false⟩

/-- Membership assignment from `buildFromElements`: a node's `groups` list
holds the ids of all groups whose `node-ids` list contains the node, in
group-element order. -/
def memberGroupIds (groups : List GGroup) (nid : String) : List String :=
  (groups.filter (fun g => g.nodeIds.contains nid)).map (fun g => g.id)

def buildNodes (ids : List String) (groups : List GGroup) : List GNode :=
  ids.map (fun i => ⟨i, memberGroupIds groups i⟩)

/-- Per-node connection count: each link increments both its source and its
target. -/
def nodeDegree (links : List GLink) (id : String) : Nat :=
  (links.filter (fun l => l.source == id)).length +
    (links.filter (fun l => l.target == id)).length

/-- The primary group of a node is the first entry of its group list. -/
def primaryOf (n : GNode) : Option String := n.groups.head?

/-- Nodes whose primary group is `g`, in input order (the push order of the
`groupedNodes` map). -/
def membersOf (nodes : List GNode) (g : String) : List GNode :=
  nodes.filter (fun n => primaryOf n == some g)

def ungroupedOf (nodes : List GNode) : List GNode :=
  nodes.filter (fun n => n.groups.isEmpty)

/-- Total connection count of a group (sum over its member nodes). -/
def groupDegree (nodes : List GNode) (links : List GLink) (g : String) : Nat :=
  ((membersOf nodes g).map (fun n => nodeDegree links n.id)).sum

/-- Group ids in order of first occurrence as some node's primary group
(the insertion order of the `groupedNodes` map). -/
def dedupFirst (l : List String) : List String :=
  l.foldl (fun acc g => if acc.contains g then acc else acc ++ [g]) []

/-- Stable insertion of `x` into a descending-sorted list: `x` goes after
every element with key at least `k x`, matching the stable JavaScript
`sort` with comparator `(a, b) => key(b) - key(a)`. -/
def insertDescBy (k : α → Nat) (x : α) : List α → List α
  | [] => [x]
  | y :: ys => if k x ≤ k y then y :: insertDescBy k x ys else x :: y :: ys

def stableSortDescBy (k : α → Nat) (l : List α) : List α :=
  l.foldl (fun acc x => insertDescBy k x acc) []

def sortedGroupIds (nodes : List GNode) (links : List GLink) : List String :=
  stableSortDescBy (groupDegree nodes links) (dedupFirst (nodes.filterMap primaryOf))

/-- `isPositionAvailable`: a cell is available when it is not occupied. -/
def isPositionAvailable (st : PosState) (x y : Int) : Bool :=
  !(st.occupied.contains (x, y))

/-- The minimum spacing between groups (`groupSpacing`), in grid units. -/
def groupSpacing : Int := 3

/-- Whether `(x, y)` lies within the spacing-buffered bounds `b`. -/
def withinBuffered (b : GBounds) (x y : Int) : Bool :=
  decide (b.minX - groupSpacing ≤ x) && decide (x ≤ b.maxX + groupSpacing) &&
    decide (b.minY - groupSpacing ≤ y) && decide (y ≤ b.maxY + groupSpacing)

/-- `respectsGroupSpacing`: true iff `(x, y)` lies outside the buffered
bounds of every group other than `current` (`none` encodes the `null`
group id used for ungrouped nodes, which conflicts with every group). -/
def respectsGroupSpacing (st : PosState) (current : Option String) (x y : Int) : Bool :=
  st.bounds.all (fun gb => current == some gb.1 || !(withinBuffered gb.2 x y))

/-- `placeNode`: marks the cell occupied and records the node's grid cell. -/
def placeNode (st : PosState) (id : String) (x y : Int) : PosState :=
  { st with occupied := (x, y) :: st.occupied, pos := (id, (x, y)) :: st.pos }

/-- Extends (or creates) the bounds entry of group `g` to include the cell,
mirroring `updateGroupBounds`; `groupCells` is the ghost log. -/
def setBounds : List (String × GBounds) → String → Int → Int → List (String × GBounds)
  | [], g, x, y => [(g, ⟨x, x, y, y⟩)]
  | (g', b) :: rest, g, x, y =>
      if g' == g then
        (g', ⟨min b.minX x, max b.maxX x, min b.minY y, max b.maxY y⟩) :: rest
      else
        (g', b) :: setBounds rest g x y

def updateGroupBounds (st : PosState) (g : String) (x y : Int) : PosState :=
  { st with bounds := setBounds st.bounds g x y, groupCells := (g, (x, y)) :: st.groupCells }

def addPlaced (st : PosState) (id : String) : PosState :=
  { st with placedIds := id :: st.placedIds }

def lookupPos (st : PosState) (id : String) : Option (Int × Int) :=
  (st.pos.find? (fun p => p.1 == id)).map (fun p => p.2)

def lookupBounds (st : PosState) (g : String) : Option GBounds :=
  (st.bounds.find? (fun p => p.1 == g)).map (fun p => p.2)

/-- The cells of the square ring of radius `r` around the origin, in the
scan order of the source loops: `dx` from `-r` to `r` outer, `dy` from `-r`
to `r` inner, keeping only cells with `|dx| = r` or `|dy| = r`. -/
def ringCells (r : Nat) : List (Int × Int) :=
  (List.range (2 * r + 1)).flatMap (fun i =>
    (List.range (2 * r + 1)).filterMap (fun j =>
      if ((i : Int) - (r : Int)).natAbs = r || ((j : Int) - (r : Int)).natAbs = r then
        some ((i : Int) - (r : Int), (j : Int) - (r : Int))
      else none))

/-- Scans rings of radius `lo`, `lo + 1`, ..., `hi - 1` around `(cx, cy)`
and returns the first accepted cell, mirroring the nested
radius/`dx`/`dy` loops with their early exit. -/
def searchRings (lo hi : Nat) (cx cy : Int) (accept : Int → Int → Bool) : Option (Int × Int) :=
  ((List.range hi).drop lo).findSome? (fun r =>
    ((ringCells r).find? (fun c => accept (cx + c.1) (cy + c.2))).map
      (fun c => (cx + c.1, cy + c.2)))

/-- `findNearestAvailablePosition`: the start cell if available, otherwise
the first available cell on the rings of radius 1 to 99; if the search is
exhausted it falls back to returning the start cell itself (the branch the
source marks "should never reach here"). -/
def findNearestAvailablePosition (st : PosState) (startX startY : Int) : Int × Int :=
  if isPositionAvailable st startX startY then (startX, startY)
  else
    match searchRings 1 100 startX startY (fun x y => isPositionAvailable st x y) with
    | some c => c
    | none => (startX, startY)

/-- Acceptance test for placements of group `g`: free and outside every
other group's buffered bounds. -/
def acceptGroup (st : PosState) (g : String) (x y : Int) : Bool :=
  isPositionAvailable st x y && respectsGroupSpacing st (some g) x y

/-- Acceptance test for ungrouped placements (`null` group id). -/
def acceptNull (st : PosState) (x y : Int) : Bool :=
  isPositionAvailable st x y && respectsGroupSpacing st none x y

/-- The eight neighbor offsets tried around an anchor, in source order. -/
def offsets8 : List (Int × Int) :=
  [(1, 0), (-1, 0), (0, 1), (0, -1), (1, 1), (-1, 1), (1, -1), (-1, -1)]

/-- Places the first member of a group: the very first group starts at the
origin; later groups ring-search radii 4..99 from the origin for a free,
spacing-respecting cell, falling back to `findNearestAvailablePosition`
(ignoring spacing) when the search fails. Returns the new state and the
chosen cell. -/
def placeGroupFirst (isFirst : Bool) (st : PosState) (g : String) (nid : String) :
    PosState × (Int × Int) :=
  if isFirst then
    (addPlaced (updateGroupBounds (placeNode st nid 0 0) g 0 0) nid, (0, 0))
  else
    match searchRings 4 100 0 0 (fun x y => acceptGroup st g x y) with
    | some c => (addPlaced (updateGroupBounds (placeNode st nid c.1 c.2) g c.1 c.2) nid, c)
    | none =>
        let p := findNearestAvailablePosition st 0 0
        ({ addPlaced (updateGroupBounds (placeNode st nid p.1 p.2) g p.1 p.2) nid with
            usedFallback := true }, p)

/-- Places a non-first member of group `g`: tries the eight neighbors of
each already-placed member (cells in `prev`, placement order), then a
ring search of radii 1..49 around the group's first member, then the
spacing-ignoring fallback. Returns the new state and the chosen cell. -/
def placeMember (st : PosState) (g : String) (firstCell : Int × Int)
    (prev : List (Int × Int)) (nid : String) : PosState × (Int × Int) :=
  match prev.findSome? (fun mc =>
      offsets8.findSome? (fun o =>
        if acceptGroup st g (mc.1 + o.1) (mc.2 + o.2) then
          some (mc.1 + o.1, mc.2 + o.2)
        else none)) with
  | some c => (addPlaced (updateGroupBounds (placeNode st nid c.1 c.2) g c.1 c.2) nid, c)
  | none =>
      match searchRings 1 50 firstCell.1 firstCell.2 (fun x y => acceptGroup st g x y) with
      | some c => (addPlaced (updateGroupBounds (placeNode st nid c.1 c.2) g c.1 c.2) nid, c)
      | none =>
          let p := findNearestAvailablePosition st firstCell.1 firstCell.2
          ({ addPlaced (updateGroupBounds (placeNode st nid p.1 p.2) g p.1 p.2) nid with
              usedFallback := true }, p)

def placeMembers (g : String) (firstCell : Int × Int) (st : PosState)
    (prev : List (Int × Int)) : List GNode → PosState
  | [] => st
  | m :: rest =>
      let r := placeMember st g firstCell prev m.id
      placeMembers g firstCell r.1 (prev ++ [r.2]) rest

def placeGroup (isFirst : Bool) (st : PosState) (g : String) : List GNode → PosState
  | [] => st
  | m0 :: rest =>
      let r0 := placeGroupFirst isFirst st g m0.id
      placeMembers g r0.2 r0.1 [r0.2] rest

def placeGroups (st : PosState) (isFirst : Bool) : List (String × List GNode) → PosState
  | [] => st
  | gm :: rest =>
      if gm.2.isEmpty then placeGroups st isFirst rest
      else placeGroups (placeGroup isFirst st gm.1 gm.2) false rest

/-- The adjacency list entry of a node: for each link, the link's target is
pushed for its source and the link's source for its target, in link order. -/
def neighborIdsOf (links : List GLink) (id : String) : List String :=
  links.flatMap (fun l =>
    (if l.source == id then [l.target] else []) ++
      (if l.target == id then [l.source] else []))

/-- Places one ungrouped node. If nothing is placed yet it takes the
origin. Otherwise it anchors on the first already-placed graph neighbor:
first the eight neighbor offsets, then a ring search of radii 1..99 around
that anchor. Failing both (or having no placed neighbor) it ring-searches
radii 0..99 from the origin. Every search requires the cell to be free and
to respect the buffered bounds of all groups; when even the origin search
fails the node is left without a grid cell (there is no spacing-ignoring
fallback on this path). A neighbor recorded in `placedIds` without a
recorded cell only arises after such a failure; the source would then
compute NaN coordinates, modelled here as a failed neighbor search. -/
def placeUngrouped (links : List GLink) (st : PosState) (n : GNode) : PosState :=
  if st.placedIds.isEmpty then
    addPlaced (placeNode st n.id 0 0) n.id
  else
    let viaNeighbor : Option (Int × Int) :=
      match (neighborIdsOf links n.id).find? (fun nb => st.placedIds.contains nb) with
      | some nb =>
          match lookupPos st nb with
          | some nc =>
              match offsets8.findSome? (fun o =>
                  if acceptNull st (nc.1 + o.1) (nc.2 + o.2) then
                    some (nc.1 + o.1, nc.2 + o.2)
                  else none) with
              | some c => some c
              | none => searchRings 1 100 nc.1 nc.2 (fun x y => acceptNull st x y)
          | none => none
      | none => none
    match viaNeighbor with
    | some c => addPlaced (placeNode st n.id c.1 c.2) n.id
    | none =>
        match searchRings 0 100 0 0 (fun x y => acceptNull st x y) with
        | some c => addPlaced (placeNode st n.id c.1 c.2) n.id
        | none => addPlaced st n.id

def placeUngroupedAll (links : List GLink) (st : PosState) : List GNode → PosState
  | [] => st
  | n :: rest => placeUngroupedAll links (placeUngrouped links st n) rest

/-- Sorted member list of a group: by connection count descending, ties in
input order (stable sort). -/
def sortedMembers (nodes : List GNode) (links : List GLink) (g : String) : List GNode :=
  stableSortDescBy (fun n => nodeDegree links n.id) (membersOf nodes g)

/-- The full grid positioner `calculateGridPositions`: groups ordered by
total connection count (stable), members and ungrouped nodes by individual
connection count (stable); groups are placed first, then ungrouped nodes. -/
def calculateGridPositions (nodes : List GNode) (links : List GLink) : PosState :=
  if nodes.isEmpty then initState
  else
    let gids := sortedGroupIds nodes links
    let st1 := placeGroups initState true
      (gids.map (fun g => (g, sortedMembers nodes links g)))
    placeUngroupedAll links st1
      (stableSortDescBy (fun n => nodeDegree links n.id) (ungroupedOf nodes))

/-- A node's world position as assigned by `placeNode`:
`(gridX * 80, 0, gridY * 80)` with the default spacing constant 80. -/
def worldPosition (c : Int × Int) : Int × Int × Int := (c.1 * 80, 0, c.2 * 80)

/-!
Part 2: the voxel boundary builder and collinear edge merger of
`GroupWireframeManager.update` (`src/unnamed/part_002`), for one group.
Coordinates are integers: node world positions are multiples of the grid
spacing, voxel centers are multiples of the voxel size, and all edge
endpoints are multiples of the 20-unit half-voxel, so the floating-point
arithmetic of the source (including its `toFixed(2)` keys and 0.01
tolerance comparisons) is exact on this domain.
-/

/-- A point or voxel coordinate in 3-space. -/
abbrev V3 := Int × Int × Int

/-- The fixed padding around each node box. -/
def padding : Int := 20

/-- Voxel edge length: `padding * 2`. -/
def voxelSize : Int := 40

/-- `Math.round(a / voxelSize)` for integer `a`: round half toward
positive infinity. -/
def roundToVoxel (a : Int) : Int := Int.fdiv (2 * a + voxelSize) (2 * voxelSize)

/-- The voxel containing a node's box center (the node's own position,
since the box is centered on it). -/
def voxelCoordOf (p : V3) : V3 := (roundToVoxel p.1, roundToVoxel p.2.1, roundToVoxel p.2.2)

/-- Inserts a voxel key if absent, preserving map insertion order. -/
def addVox (l : List V3) (v : V3) : List V3 := if l.contains v then l else l ++ [v]

/-- The cells visited by one axis leg of `addCorridor`: from `a` stepping
toward `b`, excluding `b` itself. -/
def legCells (a b : Int) (mk : Int → V3) : List V3 :=
  (List.range (b - a).natAbs).map (fun k => mk (a + (if a < b then 1 else -1) * Int.ofNat k))

/-- The cells visited by `addCorridor` from `p` to `q`: first along x,
then y, then z (Manhattan routing). -/
def corridorCells (p q : V3) : List V3 :=
  legCells p.1 q.1 (fun x => (x, p.2.1, p.2.2)) ++
    legCells p.2.1 q.2.1 (fun y => (q.1, y, p.2.2)) ++
      legCells p.2.2 q.2.2 (fun z => (q.1, q.2.1, z))

/-- Squared Euclidean distance between voxel coordinates; the source
compares `Math.sqrt` values, which is equivalent on these magnitudes. -/
def sqDist (p q : V3) : Nat :=
  ((p.1 - q.1) ^ 2 + (p.2.1 - q.2.1) ^ 2 + (p.2.2 - q.2.2) ^ 2).toNat

/-- The index of the nearest other node voxel: strictly smaller distance
wins, so the first minimum in iteration order is kept. -/
def nearestIdx (vs : List V3) (i : Nat) : Option Nat :=
  (List.range vs.length).foldl
    (fun best j =>
      if j = i then best
      else
        match best with
        | none => some j
        | some b =>
            if sqDist (vs.getD i (0, 0, 0)) (vs.getD j (0, 0, 0)) <
                sqDist (vs.getD i (0, 0, 0)) (vs.getD b (0, 0, 0)) then
              some j
            else best)
    none

/-- The connectivity pass: each node voxel carves a corridor to its
nearest other node voxel. -/
def carveCorridors (vs : List V3) (occ : List V3) : List V3 :=
  (List.range vs.length).foldl
    (fun acc i =>
      match nearestIdx vs i with
      | some j => (corridorCells (vs.getD i (0, 0, 0)) (vs.getD j (0, 0, 0))).foldl addVox acc
      | none => acc)
    occ

/-- The occupied voxel set (as an insertion-ordered key list) after
voxelizing the member node positions and carving corridors. -/
def occupiedVoxels (ps : List V3) : List V3 :=
  let vs := ps.map voxelCoordOf
  carveCorridors vs (vs.foldl addVox [])

/-- A boundary edge between two 3D endpoints. -/
structure E3 where
  x1 : Int
  y1 : Int
  z1 : Int
  x2 : Int
  y2 : Int
  z2 : Int
deriving DecidableEq, Repr

/-- `addEdge` normalization: lexicographically smaller endpoint first. -/
def canonEdge (e : E3) : E3 :=
  if e.x1 < e.x2 ∨ (e.x1 = e.x2 ∧ e.y1 < e.y2) ∨ (e.x1 = e.x2 ∧ e.y1 = e.y2 ∧ e.z1 < e.z2) then
    e
  else
    ⟨e.x2, e.y2, e.z2, e.x1, e.y1, e.z1⟩

def vadd (a b : V3) : V3 := (a.1 + b.1, a.2.1 + b.2.1, a.2.2 + b.2.2)

/-- The world-space center of a voxel. -/
def voxelCenter (v : V3) : V3 := (v.1 * voxelSize, v.2.1 * voxelSize, v.2.2 * voxelSize)

/-- The six face directions in the order the source checks them:
front (-z), back (+z), left (-x), right (+x), bottom (-y), top (+y). -/
def faceDirs : List V3 := [(0, 0, -1), (0, 0, 1), (-1, 0, 0), (1, 0, 0), (0, -1, 0), (0, 1, 0)]

/-- The four (pre-normalization) edges of one face of the voxel with
center `c`, in the order of the source's `addEdge` calls. -/
def faceEdgesRaw (c : V3) (d : V3) : List E3 :=
  if d = ((0 : Int), (0 : Int), (-1 : Int)) then
    [⟨(c.1 - padding), (c.2.1 - padding), (c.2.2 - padding), (c.1 + padding), (c.2.1 - padding), (c.2.2 - padding)⟩,
      ⟨(c.1 + padding), (c.2.1 - padding), (c.2.2 - padding), (c.1 + padding), (c.2.1 + padding), (c.2.2 - padding)⟩,
      ⟨(c.1 + padding), (c.2.1 + padding), (c.2.2 - padding), (c.1 - padding), (c.2.1 + padding), (c.2.2 - padding)⟩,
      ⟨(c.1 - padding), (c.2.1 + padding), (c.2.2 - padding), (c.1 - padding), (c.2.1 - padding), (c.2.2 - padding)⟩]
  else if d = ((0 : Int), (0 : Int), (1 : Int)) then
    [⟨(c.1 - padding), (c.2.1 - padding), (c.2.2 + padding), (c.1 + padding), (c.2.1 - padding), (c.2.2 + padding)⟩,
      ⟨(c.1 + padding), (c.2.1 - padding), (c.2.2 + padding), (c.1 + padding), (c.2.1 + padding), (c.2.2 + padding)⟩,
      ⟨(c.1 + padding), (c.2.1 + padding), (c.2.2 + padding), (c.1 - padding), (c.2.1 + padding), (c.2.2 + padding)⟩,
      ⟨(c.1 - padding), (c.2.1 + padding), (c.2.2 + padding), (c.1 - padding), (c.2.1 - padding), (c.2.2 + padding)⟩]
  else if d = ((-1 : Int), (0 : Int), (0 : Int)) then
    [⟨(c.1 - padding), (c.2.1 - padding), (c.2.2 - padding), (c.1 - padding), (c.2.1 + padding), (c.2.2 - padding)⟩,
      ⟨(c.1 - padding), (c.2.1 + padding), (c.2.2 - padding), (c.1 - padding), (c.2.1 + padding), (c.2.2 + padding)⟩,
      ⟨(c.1 - padding), (c.2.1 + padding), (c.2.2 + padding), (c.1 - padding), (c.2.1 - padding), (c.2.2 + padding)⟩,
      ⟨(c.1 - padding), (c.2.1 - padding), (c.2.2 + padding), (c.1 - padding), (c.2.1 - padding), (c.2.2 - padding)⟩]
  else if d = ((1 : Int), (0 : Int), (0 : Int)) then
    [⟨(c.1 + padding), (c.2.1 - padding), (c.2.2 - padding), (c.1 + padding), (c.2.1 + padding), (c.2.2 - padding)⟩,
      ⟨(c.1 + padding), (c.2.1 + padding), (c.2.2 - padding), (c.1 + padding), (c.2.1 + padding), (c.2.2 + padding)⟩,
      ⟨(c.1 + padding), (c.2.1 + padding), (c.2.2 + padding), (c.1 + padding), (c.2.1 - padding), (c.2.2 + padding)⟩,
      ⟨(c.1 + padding), (c.2.1 - padding), (c.2.2 + padding), (c.1 + padding), (c.2.1 - padding), (c.2.2 - padding)⟩]
  else if d = ((0 : Int), (-1 : Int), (0 : Int)) then
    [⟨(c.1 - padding), (c.2.1 - padding), (c.2.2 - padding), (c.1 + padding), (c.2.1 - padding), (c.2.2 - padding)⟩,
      ⟨(c.1 + padding), (c.2.1 - padding), (c.2.2 - padding), (c.1 + padding), (c.2.1 - padding), (c.2.2 + padding)⟩,
      ⟨(c.1 + padding), (c.2.1 - padding), (c.2.2 + padding), (c.1 - padding), (c.2.1 - padding), (c.2.2 + padding)⟩,
      ⟨(c.1 - padding), (c.2.1 - padding), (c.2.2 + padding), (c.1 - padding), (c.2.1 - padding), (c.2.2 - padding)⟩]
  else if d = ((0 : Int), (1 : Int), (0 : Int)) then
    [⟨(c.1 - padding), (c.2.1 + padding), (c.2.2 - padding), (c.1 + padding), (c.2.1 + padding), (c.2.2 - padding)⟩,
      ⟨(c.1 + padding), (c.2.1 + padding), (c.2.2 - padding), (c.1 + padding), (c.2.1 + padding), (c.2.2 + padding)⟩,
      ⟨(c.1 + padding), (c.2.1 + padding), (c.2.2 + padding), (c.1 - padding), (c.2.1 + padding), (c.2.2 + padding)⟩,
      ⟨(c.1 - padding), (c.2.1 + padding), (c.2.2 + padding), (c.1 - padding), (c.2.1 + padding), (c.2.2 - padding)⟩]
  else []

/-- A face is exposed when the adjacent voxel in direction `d` is not
occupied. -/
def faceExposed (occ : List V3) (v d : V3) : Bool := !(occ.contains (vadd v d))

/-- The canonicalized edges an occupied voxel's face contributes: its four
edges when exposed, nothing when the neighbor is occupied. -/
def faceContribution (occ : List V3) (v d : V3) : List E3 :=
  if faceExposed occ v d then (faceEdgesRaw (voxelCenter v) d).map canonEdge else []

/-- Inserts an edge key if absent, preserving set insertion order. -/
def addEdgeKey (l : List E3) (e : E3) : List E3 := if l.contains e then l else l ++ [e]

/-- Face culling: every occupied voxel contributes the edges of each of
its exposed faces, deduplicated by canonical key in insertion order. -/
def boundaryEdges (occ : List V3) : List E3 :=
  occ.foldl
    (fun acc v =>
      faceDirs.foldl (fun acc2 d => (faceContribution occ v d).foldl addEdgeKey acc2) acc)
    []

/-- The axis an edge varies along. -/
inductive Axis where
  | x
  | y
  | z
deriving DecidableEq, Repr

/-- The source's 0.01 tolerance comparison; exact equality on the integer
coordinates this pipeline produces. -/
def tolEq (a b : Int) : Bool := a == b

/-- An edge's merge-group key: its axis and its two fixed coordinates; the
source silently drops edges that vary in no axis or in more than one. -/
def keyOf (e : E3) : Option (Axis × Int × Int) :=
  if e.x1 ≠ e.x2 ∧ e.y1 = e.y2 ∧ e.z1 = e.z2 then some (Axis.x, e.y1, e.z1)
  else if e.y1 ≠ e.y2 ∧ e.x1 = e.x2 ∧ e.z1 = e.z2 then some (Axis.y, e.x1, e.z1)
  else if e.z1 ≠ e.z2 ∧ e.x1 = e.x2 ∧ e.y1 = e.y2 then some (Axis.z, e.x1, e.y1)
  else none

/-- Forward merge test: the current segment's end meets the other's start. -/
def fwd (a : Axis) (cur e : E3) : Bool :=
  match a with
  | Axis.x => tolEq cur.x2 e.x1
  | Axis.y => tolEq cur.y2 e.y1
  | Axis.z => tolEq cur.z2 e.z1

/-- Backward merge test: the current segment's start meets the other's end. -/
def bwd (a : Axis) (cur e : E3) : Bool :=
  match a with
  | Axis.x => tolEq cur.x1 e.x2
  | Axis.y => tolEq cur.y1 e.y2
  | Axis.z => tolEq cur.z1 e.z2

def extendFwd (a : Axis) (cur e : E3) : E3 :=
  match a with
  | Axis.x => { cur with x2 := e.x2 }
  | Axis.y => { cur with y2 := e.y2 }
  | Axis.z => { cur with z2 := e.z2 }

def extendBwd (a : Axis) (cur e : E3) : E3 :=
  match a with
  | Axis.x => { cur with x1 := e.x1 }
  | Axis.y => { cur with y1 := e.y1 }
  | Axis.z => { cur with z1 := e.z1 }

/-- One pass of the inner `j` loop: walk the unused segments in order,
greedily merging each one that meets the current segment (forward first,
then backward), and report whether anything merged. Returns the extended
segment, the remaining unused segments in order, and the flag. -/
def mergeScan (a : Axis) (cur : E3) : List E3 → E3 × List E3 × Bool
  | [] => (cur, [], false)
  | e :: es =>
      if fwd a cur e then
        let r := mergeScan a (extendFwd a cur e) es
        (r.1, r.2.1, true)
      else if bwd a cur e then
        let r := mergeScan a (extendBwd a cur e) es
        (r.1, r.2.1, true)
      else
        let r := mergeScan a cur es
        (r.1, e :: r.2.1, r.2.2)

theorem mergeScan_length_le (a : Axis) (cur : E3) (segs : List E3) :
    (mergeScan a cur segs).2.1.length ≤ segs.length := by
  induction segs generalizing cur with
  | nil => simp [mergeScan]
  | cons e es ih =>
      by_cases hf : fwd a cur e
      · simpa [mergeScan, hf] using Nat.le_succ_of_le (ih (extendFwd a cur e))
      · by_cases hb : bwd a cur e
        · simpa [mergeScan, hf, hb] using Nat.le_succ_of_le (ih (extendBwd a cur e))
        · simpa [mergeScan, hf, hb] using ih cur

theorem mergeScan_length_lt (a : Axis) (cur : E3) (segs : List E3)
    (h : (mergeScan a cur segs).2.2 = true) :
    (mergeScan a cur segs).2.1.length < segs.length := by
  induction segs generalizing cur with
  | nil => simp [mergeScan] at h
  | cons e es ih =>
      by_cases hf : fwd a cur e
      · simpa [mergeScan, hf] using Nat.lt_succ_of_le (mergeScan_length_le a (extendFwd a cur e) es)
      · by_cases hb : bwd a cur e
        · simpa [mergeScan, hf, hb] using
            Nat.lt_succ_of_le (mergeScan_length_le a (extendBwd a cur e) es)
        · simp only [mergeScan, hf, hb] at h ⊢
          exact Nat.succ_lt_succ (ih cur h)

/-- Fuel-bounded form of the `while (extended)` closure; the fuel only
serves to make the loop structurally recursive and is irrelevant once it
exceeds the segment count (each merging pass strictly shrinks the unused
list). -/
def mergeClosureF : Nat → Axis → E3 → List E3 → E3 × List E3
  | 0, _, cur, segs => (cur, segs)
  | fuel + 1, a, cur, segs =>
      let r := mergeScan a cur segs
      if r.2.2 then mergeClosureF fuel a r.1 r.2.1 else (r.1, r.2.1)

/-- The `while (extended)` closure: rescan until a full pass merges
nothing. -/
def mergeClosure (a : Axis) (cur : E3) (segs : List E3) : E3 × List E3 :=
  mergeClosureF (segs.length + 1) a cur segs

theorem mergeClosureF_fuel_irrel (fuel : Nat) :
    ∀ (fuel2 : Nat) (a : Axis) (cur : E3) (segs : List E3),
      segs.length < fuel → segs.length < fuel2 →
        mergeClosureF fuel a cur segs = mergeClosureF fuel2 a cur segs := by
  induction fuel with
  | zero => intro fuel2 a cur segs h1 h2; omega
  | succ fuel ih =>
      intro fuel2 a cur segs h1 h2
      match fuel2 with
      | 0 => omega
      | fuel2 + 1 =>
          simp only [mergeClosureF]
          by_cases hflag : (mergeScan a cur segs).2.2 = true
          · simp only [hflag, if_true]
            have hlt := mergeScan_length_lt a cur segs hflag
            exact ih fuel2 a (mergeScan a cur segs).1 (mergeScan a cur segs).2.1
              (by omega) (by omega)
          · simp [hflag]

/-- The closure satisfies its while-loop unfolding equation. -/
theorem mergeClosure_eq (a : Axis) (cur : E3) (segs : List E3) :
    mergeClosure a cur segs =
      (if (mergeScan a cur segs).2.2 then
        mergeClosure a (mergeScan a cur segs).1 (mergeScan a cur segs).2.1
      else ((mergeScan a cur segs).1, (mergeScan a cur segs).2.1)) := by
  show mergeClosureF (segs.length + 1) a cur segs = _
  simp only [mergeClosureF]
  by_cases hflag : (mergeScan a cur segs).2.2 = true
  · simp only [hflag, if_true]
    have hlt := mergeScan_length_lt a cur segs hflag
    exact mergeClosureF_fuel_irrel _ _ a _ _ (by omega) (by omega)
  · simp [hflag]

theorem mergeClosureF_length_le (fuel : Nat) :
    ∀ (a : Axis) (cur : E3) (segs : List E3),
      (mergeClosureF fuel a cur segs).2.length ≤ segs.length := by
  induction fuel with
  | zero => intro a cur segs; simp [mergeClosureF]
  | succ fuel ih =>
      intro a cur segs
      simp only [mergeClosureF]
      by_cases hflag : (mergeScan a cur segs).2.2 = true
      · simp only [hflag, if_true]
        exact le_trans (ih a (mergeScan a cur segs).1 (mergeScan a cur segs).2.1)
          (mergeScan_length_le a cur segs)
      · simp only [hflag]
        exact mergeScan_length_le a cur segs

theorem mergeClosure_length_le (a : Axis) (cur : E3) (segs : List E3) :
    (mergeClosure a cur segs).2.length ≤ segs.length :=
  mergeClosureF_length_le (segs.length + 1) a cur segs

/-- Fuel-bounded form of the outer `i` loop of the merge step. -/
def mergeChainsF : Nat → Axis → List E3 → List E3
  | 0, _, _ => []
  | fuel + 1, a, l =>
      match l with
      | [] => []
      | seed :: rest =>
          let r := mergeClosure a seed rest
          r.1 :: mergeChainsF fuel a r.2

/-- The outer `i` loop of the merge step: each still-unused segment seeds
a chain, which the closure extends maximally; chains are emitted in seed
order. -/
def mergeChains (a : Axis) (l : List E3) : List E3 :=
  mergeChainsF l.length a l

theorem mergeChainsF_fuel_irrel (fuel : Nat) :
    ∀ (fuel2 : Nat) (a : Axis) (l : List E3),
      l.length ≤ fuel → l.length ≤ fuel2 →
        mergeChainsF fuel a l = mergeChainsF fuel2 a l := by
  induction fuel with
  | zero =>
      intro fuel2 a l h1 h2
      have : l = [] := List.length_eq_zero.mp (Nat.le_zero.mp h1)
      subst this
      cases fuel2 <;> simp [mergeChainsF]
  | succ fuel ih =>
      intro fuel2 a l h1 h2
      match l with
      | [] => cases fuel2 <;> simp [mergeChainsF]
      | seed :: rest =>
          match fuel2 with
          | 0 => simp at h2
          | fuel2 + 1 =>
              simp only [mergeChainsF]
              have hle := mergeClosure_length_le a seed rest
              have h1' : rest.length ≤ fuel := by simpa using h1
              have h2' : rest.length ≤ fuel2 := by simpa using h2
              rw [ih fuel2 a (mergeClosure a seed rest).2 (by omega) (by omega)]

theorem mergeChains_nil (a : Axis) : mergeChains a [] = [] := rfl

theorem mergeChains_cons (a : Axis) (seed : E3) (rest : List E3) :
    mergeChains a (seed :: rest) =
      (mergeClosure a seed rest).1 :: mergeChains a (mergeClosure a seed rest).2 := by
  show mergeChainsF (rest.length + 1) a (seed :: rest) = _
  simp only [mergeChainsF]
  have hle := mergeClosure_length_le a seed rest
  rw [mergeChainsF_fuel_irrel rest.length (mergeClosure a seed rest).2.length a
    (mergeClosure a seed rest).2 (by omega) (by omega)]
  rfl

/-- Merge-group keys in first-occurrence order (the insertion order of the
`edgeGroups` map); edges without a key are dropped. -/
def groupKeysOf (edges : List E3) : List (Axis × Int × Int) :=
  (edges.filterMap keyOf).foldl (fun acc k => if acc.contains k then acc else acc ++ [k]) []

/-- The full collinear-merge pass: group the edges by key (preserving
order), merge chains within each group, and concatenate the results in
group order. -/
def mergePass (edges : List E3) : List E3 :=
  (groupKeysOf edges).flatMap (fun k =>
    mergeChains k.1 (edges.filter (fun e => keyOf e == some k)))

/-- The boundary polyline of one group, from its member world positions:
voxelize, carve corridors, cull faces, merge collinear edges. -/
def groupBoundary (ps : List V3) : List E3 := mergePass (boundaryEdges (occupiedVoxels ps))

/-- The six face-adjacent neighbor coordinates of a voxel. -/
def neighborsFace (v : V3) : List V3 :=
  [((1 : Int), (0 : Int), (0 : Int)), (-1, 0, 0), (0, 1, 0), (0, -1, 0), (0, 0, 1), (0, 0, -1)].map
    (vadd v)

/-- Face-adjacency reachability within an occupancy set, stated from the
specification's words (single connected component by face-adjacency). -/
inductive FaceConn (occ : List V3) : V3 → V3 → Prop where
  | refl (v : V3) : FaceConn occ v v
  | step {u v w : V3} : FaceConn occ u v → w ∈ neighborsFace v → w ∈ occ → FaceConn occ u w

/-- Whether `(x, y)` lies within the (unbuffered) bounds `b`; stated from
the specification's words for the containment property. -/
def withinBounds (b : GBounds) (x y : Int) : Bool :=
  decide (b.minX ≤ x) && decide (x ≤ b.maxX) &&
    decide (b.minY ≤ y) && decide (y ≤ b.maxY)

/-- `a` occurs strictly before `b` in the list `l`. -/
def PrecedesIn (l : List α) (a b : α) : Prop :=
  ∃ l1 l2, l = l1 ++ a :: l2 ∧ b ∈ l2

/-!
Theorems.
-/

/-- If a set `L` of voxels is closed under occupied face-neighbors, then
face-adjacency reachability cannot leave `L`. -/
theorem faceConn_closed (occ L : List V3)
    (hcl : ∀ v ∈ L, ∀ w ∈ neighborsFace v, w ∈ occ → w ∈ L) :
    ∀ u v, FaceConn occ u v → u ∈ L → v ∈ L := by
  intro u v h
  induction h with
  | refl => exact fun hu => hu
  | step hc hw hocc ih => exact fun hu => hcl _ (ih hu) _ hw hocc

/-- Every cell on the radius-`r` ring lies within Chebyshev distance `r`
of the ring center. -/
theorem ringCells_bound (r : Nat) (c : Int × Int) (hc : c ∈ ringCells r) :
    c.1.natAbs ≤ r ∧ c.2.natAbs ≤ r := by
  unfold ringCells at hc
  simp only [List.mem_flatMap, List.mem_filterMap, List.mem_range] at hc
  obtain ⟨i, hi, j, hj, hij⟩ := hc
  simp only [List.pure_def, List.bind_eq_flatMap, List.mem_flatMap, List.mem_range,
    List.mem_singleton] at hj
  obtain ⟨j0, hj0, rfl⟩ := hj
  split at hij
  · cases hij
    refine ⟨?_, ?_⟩
    · show ((i : Int) - (r : Int)).natAbs ≤ r
      omega
    · show ((j0 : Int) - (r : Int)).natAbs ≤ r
      omega
  · cases hij

/-- If the acceptance test fails at every cell within Chebyshev distance
`hi - 1` of the center, the bounded ring search returns nothing. -/
theorem searchRings_none (lo hi : Nat) (cx cy : Int) (accept : Int → Int → Bool)
    (h : ∀ x y : Int, (x - cx).natAbs < hi → (y - cy).natAbs < hi → accept x y = false) :
    searchRings lo hi cx cy accept = none := by
  unfold searchRings
  rw [List.findSome?_eq_none_iff]
  intro r hr
  have hrhi : r < hi := List.mem_range.mp (List.mem_of_mem_drop hr)
  have hfind : (ringCells r).find? (fun c => accept (cx + c.1) (cy + c.2)) = none := by
    rw [List.find?_eq_none]
    intro c hc
    have hb := ringCells_bound r c hc
    have h1 : (cx + c.1 - cx).natAbs < hi := by omega
    have h2 : (cy + c.2 - cy).natAbs < hi := by omega
    simp [h (cx + c.1) (cy + c.2) h1 h2]
  rw [hfind]
  rfl

/-- C1 (supporting theorem): when every cell within Chebyshev distance 99
of the start is occupied, the 100-ring search of
`findNearestAvailablePosition` is exhausted and the function returns the
start cell itself, which is already occupied, so the `placeNode` call that
consumes this fallback result assigns a second node to an occupied grid
cell and the no-collision property fails. -/
theorem C1_exhausted_fallback_returns_occupied (st : PosState) (sx sy : Int)
    (h : ∀ x y : Int, (x - sx).natAbs < 100 → (y - sy).natAbs < 100 →
      isPositionAvailable st x y = false) :
    findNearestAvailablePosition st sx sy = (sx, sy) ∧ (sx, sy) ∈ st.occupied := by
  have hstart : isPositionAvailable st sx sy = false := h sx sy (by simp) (by simp)
  constructor
  · unfold findNearestAvailablePosition
    rw [hstart]
    simp only [Bool.false_eq_true, if_false]
    rw [searchRings_none 1 100 sx sy _ (fun x y hx hy => h x y hx hy)]
  · have := hstart
    unfold isPositionAvailable at this
    simp only [Bool.not_eq_false'] at this
    exact List.mem_of_elem_eq_true this

theorem C1_exhausted_fallback_returns_occupied_witness :
    findNearestAvailablePosition
        ⟨(List.range 199).flatMap (fun i => (List.range 199).map
          (fun j => ((i : Int) - 99, (j : Int) - 99))), [], [], [], [], false⟩ 0 0 = (0, 0) ∧
    ((0 : Int), (0 : Int)) ∈ (⟨(List.range 199).flatMap (fun i => (List.range 199).map
          (fun j => ((i : Int) - 99, (j : Int) - 99))), [], [], [], [], false⟩ :
        PosState).occupied := by
  refine C1_exhausted_fallback_returns_occupied _ 0 0 ?_
  intro x y hx hy
  have hx' : x.natAbs < 100 := by simpa using hx
  have hy' : y.natAbs < 100 := by simpa using hy
  unfold isPositionAvailable
  simp only [Bool.not_eq_false']
  apply List.elem_eq_true_of_mem
  simp only [List.mem_flatMap, List.mem_map, List.mem_range]
  refine ⟨(x + 99).toNat, by omega, (y + 99 : Int), ?_, ?_⟩
  · simp only [List.pure_def, List.bind_eq_flatMap, List.mem_flatMap, List.mem_range,
      List.mem_singleton]
    exact ⟨(y + 99).toNat, by omega, by omega⟩
  · simp only [Prod.mk.injEq]
    omega

/-- C4 (supporting theorem): an ungrouped node with no already-placed graph
neighbor, placed while some node is already placed, is handed to the
origin-centered ring search of radii 0..99; when that spacing-respecting
search fails, the node is recorded in `placedNodes` but receives no grid
cell at all: the positioner has no spacing-ignoring fallback on this path,
so the node is left unplaced. -/
theorem C4_ungrouped_search_exhaustion_leaves_node_unplaced
    (links : List GLink) (st : PosState) (n : GNode)
    (h0 : st.placedIds.isEmpty = false)
    (h1 : (neighborIdsOf links n.id).find? (fun nb => st.placedIds.contains nb) = none)
    (h2 : ∀ x y : Int, x.natAbs < 100 → y.natAbs < 100 → acceptNull st x y = false) :
    placeUngrouped links st n = addPlaced st n.id := by
  unfold placeUngrouped
  rw [h0, h1]
  simp only [Bool.false_eq_true, if_false]
  rw [searchRings_none 0 100 0 0 _
    (fun x y hx hy => h2 x y (by simpa using hx) (by simpa using hy))]

theorem C4_ungrouped_search_exhaustion_leaves_node_unplaced_witness :
    placeUngrouped []
        ⟨[((0 : Int), (0 : Int))], [("a", ((0 : Int), (0 : Int)))],
          [("g", ⟨-200, 200, -200, 200⟩)], ["a"], [("g", ((0 : Int), (0 : Int)))], false⟩
        ⟨"u", []⟩ =
      addPlaced
        ⟨[((0 : Int), (0 : Int))], [("a", ((0 : Int), (0 : Int)))],
          [("g", ⟨-200, 200, -200, 200⟩)], ["a"], [("g", ((0 : Int), (0 : Int)))], false⟩
        "u" := by
  refine C4_ungrouped_search_exhaustion_leaves_node_unplaced [] _ _ (by decide) (by decide) ?_
  intro x y hx hy
  have hw : withinBuffered ⟨-200, 200, -200, 200⟩ x y = true := by
    simp only [withinBuffered, groupSpacing, Bool.and_eq_true, decide_eq_true_eq]
    omega
  simp [acceptNull, respectsGroupSpacing, hw]

/-- C5: on the three-node chain (nodes A, B, C in input order, edges A-B
and B-C, no groups) the positioner places B at grid (0,0), A at (1,0) and
C at (-1,0); with spacing 80 the world positions are B=(0,0,0),
A=(80,0,0), C=(-80,0,0). -/
theorem C5_three_node_chain_scenario :
    lookupPos (calculateGridPositions
        [⟨"A", []⟩, ⟨"B", []⟩, ⟨"C", []⟩] [⟨"A", "B"⟩, ⟨"B", "C"⟩]) "B" = some (0, 0) ∧
    lookupPos (calculateGridPositions
        [⟨"A", []⟩, ⟨"B", []⟩, ⟨"C", []⟩] [⟨"A", "B"⟩, ⟨"B", "C"⟩]) "A" = some (1, 0) ∧
    lookupPos (calculateGridPositions
        [⟨"A", []⟩, ⟨"B", []⟩, ⟨"C", []⟩] [⟨"A", "B"⟩, ⟨"B", "C"⟩]) "C" = some (-1, 0) ∧
    worldPosition (0, 0) = (0, 0, 0) ∧
    worldPosition (1, 0) = (80, 0, 0) ∧
    worldPosition (-1, 0) = (-80, 0, 0) := by
  decide

/-- C6: the positioner is deterministic: it is a pure function of the
input node, link and group-membership lists, so two runs on identical,
identically ordered inputs assign identical grid coordinates. -/
theorem C6_positioner_deterministic (nodes nodes2 : List GNode) (links links2 : List GLink)
    (hn : nodes = nodes2) (hl : links = links2) :
    calculateGridPositions nodes links = calculateGridPositions nodes2 links2 := by
  subst hn
  subst hl
  rfl

theorem C6_positioner_deterministic_witness :
    calculateGridPositions [⟨"W", []⟩] [] = calculateGridPositions [⟨"W", []⟩] [] :=
  C6_positioner_deterministic [⟨"W", []⟩] [⟨"W", []⟩] [] [] rfl rfl

/-- C7: for a group with two member nodes at world x=0 and x=80 (padding
20, voxel size 40) the occupied voxel set after voxelization and corridor
carving is exactly the three voxels vx=0,1,2 at vy=vz=0 (listed in map
insertion order: the two node voxels, then the carved corridor voxel),
and the faces between voxels vx=0/vx=1 and vx=1/vx=2 are unexposed, so
they contribute no boundary edges. -/
theorem C7_two_node_group_voxel_scenario :
    occupiedVoxels [((0 : Int), (0 : Int), (0 : Int)), (80, 0, 0)] =
        [(0, 0, 0), (2, 0, 0), (1, 0, 0)] ∧
    faceContribution (occupiedVoxels [((0 : Int), (0 : Int), (0 : Int)), (80, 0, 0)])
        (0, 0, 0) (1, 0, 0) = [] ∧
    faceContribution (occupiedVoxels [((0 : Int), (0 : Int), (0 : Int)), (80, 0, 0)])
        (1, 0, 0) (-1, 0, 0) = [] ∧
    faceContribution (occupiedVoxels [((0 : Int), (0 : Int), (0 : Int)), (80, 0, 0)])
        (1, 0, 0) (1, 0, 0) = [] ∧
    faceContribution (occupiedVoxels [((0 : Int), (0 : Int), (0 : Int)), (80, 0, 0)])
        (2, 0, 0) (-1, 0, 0) = [] := by
  decide

/-- C2 counterexample: with two singleton groups (nodes u in group A and
v in group B, no edges), A is placed at (0,0) and B at (-4,-4); the cell
(-2,-2) lies inside both groups' spacing-buffered bounds, so the two
buffered bounds intersect after placement completes, contrary to the
claim. -/
theorem C2_buffered_bounds_can_intersect :
    lookupBounds (calculateGridPositions [⟨"u", ["A"]⟩, ⟨"v", ["B"]⟩] []) "A" =
        some ⟨0, 0, 0, 0⟩ ∧
    lookupBounds (calculateGridPositions [⟨"u", ["A"]⟩, ⟨"v", ["B"]⟩] []) "B" =
        some ⟨-4, -4, -4, -4⟩ ∧
    withinBuffered ⟨0, 0, 0, 0⟩ (-2) (-2) = true ∧
    withinBuffered ⟨-4, -4, -4, -4⟩ (-2) (-2) = true := by
  decide

/-- C3 counterexample: node u is a member of group B (its member-id list
is [u, v]) but u's primary group is A, so u is placed at (0,0) while B's
recorded bounds are the single cell (-4,-4): a node whose membership list
names a group in non-first position can lie outside that group's bounds. -/
theorem C3_nonprimary_membership_escapes_bounds :
    "u" ∈ (⟨"B", ["u", "v"]⟩ : GGroup).nodeIds ∧
    buildNodes ["u", "v"] [⟨"A", ["u"]⟩, ⟨"B", ["u", "v"]⟩] =
        [⟨"u", ["A", "B"]⟩, ⟨"v", ["B"]⟩] ∧
    lookupPos (calculateGridPositions
        (buildNodes ["u", "v"] [⟨"A", ["u"]⟩, ⟨"B", ["u", "v"]⟩]) []) "u" = some (0, 0) ∧
    lookupBounds (calculateGridPositions
        (buildNodes ["u", "v"] [⟨"A", ["u"]⟩, ⟨"B", ["u", "v"]⟩]) []) "B" =
        some ⟨-4, -4, -4, -4⟩ ∧
    withinBounds ⟨-4, -4, -4, -4⟩ 0 0 = false := by
  decide

/-- C8 counterexample: four member nodes at world x = 0, 40, 400, 440 give
node voxels 0, 1, 10, 11 on the x axis; each voxel's nearest neighbor is
its own partner, corridor carving adds nothing, and the occupied set
splits into two face-adjacency components: voxel (10,0,0) is occupied but
not reachable from the occupied voxel (0,0,0). -/
theorem C8_two_clusters_disconnected :
    occupiedVoxels [((0 : Int), (0 : Int), (0 : Int)), (40, 0, 0), (400, 0, 0), (440, 0, 0)] =
        [(0, 0, 0), (1, 0, 0), (10, 0, 0), (11, 0, 0)] ∧
    ¬ FaceConn
        (occupiedVoxels [((0 : Int), (0 : Int), (0 : Int)), (40, 0, 0), (400, 0, 0), (440, 0, 0)])
        (0, 0, 0) (10, 0, 0) := by
  refine ⟨by decide, fun h => ?_⟩
  have hmem := faceConn_closed
    (occupiedVoxels [((0 : Int), (0 : Int), (0 : Int)), (40, 0, 0), (400, 0, 0), (440, 0, 0)])
    [(0, 0, 0), (1, 0, 0)] (by decide) _ _ h (by decide)
  exact absurd hmem (by decide)

/-- An edge differs in exactly one coordinate, by exactly the voxel edge
length (40 length units). -/
def axisAligned40 (e : E3) : Bool :=
  ((e.x1 - e.x2).natAbs == 40 && e.y1 == e.y2 && e.z1 == e.z2) ||
    (e.x1 == e.x2 && (e.y1 - e.y2).natAbs == 40 && e.z1 == e.z2) ||
      (e.x1 == e.x2 && e.y1 == e.y2 && (e.z1 - e.z2).natAbs == 40)

theorem mem_addEdgeKey_foldl (l acc : List E3) (e : E3)
    (he : e ∈ l.foldl addEdgeKey acc) : e ∈ acc ∨ e ∈ l := by
  induction l generalizing acc with
  | nil => exact Or.inl he
  | cons x xs ih =>
      rcases ih (addEdgeKey acc x) he with h | h
      · unfold addEdgeKey at h
        split at h
        · exact Or.inl h
        · rcases List.mem_append.mp h with h' | h'
          · exact Or.inl h'
          · exact Or.inr (List.mem_cons.mpr (Or.inl (List.mem_singleton.mp h')))
      · exact Or.inr (List.mem_cons_of_mem x h)

theorem mem_faceDirs_foldl (occ : List V3) (v : V3) (ds : List V3) (acc : List E3) (e : E3)
    (he : e ∈ ds.foldl (fun acc2 d => (faceContribution occ v d).foldl addEdgeKey acc2) acc) :
    e ∈ acc ∨ ∃ d ∈ ds, e ∈ faceContribution occ v d := by
  induction ds generalizing acc with
  | nil => exact Or.inl he
  | cons d ds ih =>
      rcases ih ((faceContribution occ v d).foldl addEdgeKey acc) he with h | h
      · rcases mem_addEdgeKey_foldl _ _ _ h with h' | h'
        · exact Or.inl h'
        · exact Or.inr ⟨d, List.mem_cons_self d ds, h'⟩
      · obtain ⟨d', hd', he'⟩ := h
        exact Or.inr ⟨d', List.mem_cons_of_mem d hd', he'⟩

theorem mem_boundaryEdges (occ : List V3) (e : E3) (he : e ∈ boundaryEdges occ) :
    ∃ v ∈ occ, ∃ d ∈ faceDirs, e ∈ faceContribution occ v d := by
  unfold boundaryEdges at he
  suffices h : ∀ (l : List V3) (acc : List E3),
      e ∈ l.foldl (fun acc v =>
        faceDirs.foldl (fun acc2 d => (faceContribution occ v d).foldl addEdgeKey acc2) acc) acc →
      e ∈ acc ∨ ∃ v ∈ l, ∃ d ∈ faceDirs, e ∈ faceContribution occ v d by
    rcases h occ [] he with h' | h'
    · cases h'
    · exact h'
  intro l
  induction l with
  | nil => exact fun acc h => Or.inl h
  | cons v vs ih =>
      intro acc h
      rcases ih _ h with h' | h'
      · rcases mem_faceDirs_foldl occ v faceDirs acc e h' with h2 | h2
        · exact Or.inl h2
        · obtain ⟨d, hd, he'⟩ := h2
          exact Or.inr ⟨v, List.mem_cons_self v vs, d, hd, he'⟩
      · obtain ⟨v', hv', rest⟩ := h'
        exact Or.inr ⟨v', List.mem_cons_of_mem v hv', rest⟩

theorem faceEdgesRaw_axisAligned (c d : V3) (e : E3) (he : e ∈ faceEdgesRaw c d) :
    axisAligned40 e = true := by
  unfold faceEdgesRaw at he
  unfold padding at he
  repeat' split at he
  all_goals simp only [List.mem_cons, List.not_mem_nil, or_false] at he
  all_goals rcases he with rfl | rfl | rfl | rfl
  all_goals simp only [axisAligned40, Bool.or_eq_true, Bool.and_eq_true, beq_iff_eq,
    and_true, true_and]
  all_goals omega

theorem canonEdge_axisAligned (e : E3) (h : axisAligned40 e = true) :
    axisAligned40 (canonEdge e) = true := by
  unfold canonEdge
  split
  · exact h
  · simp only [axisAligned40, Bool.or_eq_true, Bool.and_eq_true, beq_iff_eq,
      and_true, true_and] at h ⊢
    omega

theorem keyOf_isSome_of_axisAligned (e : E3) (h : axisAligned40 e = true) :
    keyOf e ≠ none := by
  simp only [axisAligned40, Bool.or_eq_true, Bool.and_eq_true, beq_iff_eq] at h
  unfold keyOf
  split
  · exact Option.some_ne_none _
  · split
    · exact Option.some_ne_none _
    · split
      · exact Option.some_ne_none _
      · rename_i h1 h2 h3
        exfalso
        rcases h with (⟨⟨hd, hy⟩, hz⟩ | ⟨⟨hx, hd⟩, hz⟩) | ⟨⟨hx, hy⟩, hd⟩
        · exact h1 ⟨by omega, hy, hz⟩
        · exact h2 ⟨by omega, hx, hz⟩
        · exact h3 ⟨by omega, hx, hy⟩

theorem mem_dedup_foldl {α : Type} [BEq α] [LawfulBEq α] (l : List α) (x : α)
    (acc : List α) (hx : x ∈ acc ∨ x ∈ l) :
    x ∈ l.foldl (fun acc k => if acc.contains k then acc else acc ++ [k]) acc := by
  induction l generalizing acc with
  | nil =>
      rcases hx with h | h
      · exact h
      · cases h
  | cons y ys ih =>
      apply ih
      rcases hx with h | h
      · left
        show x ∈ if acc.contains y then acc else acc ++ [y]
        split
        · exact h
        · exact List.mem_append_left _ h
      · rcases List.mem_cons.mp h with rfl | h'
        · left
          show x ∈ if acc.contains x then acc else acc ++ [x]
          split
          · rename_i hcon
            exact List.mem_of_elem_eq_true hcon
          · exact List.mem_append_right _ (List.mem_singleton.mpr rfl)
        · exact Or.inr h'

theorem mem_groupKeysOf (edges : List E3) (e : E3) (k : Axis × Int × Int)
    (he : e ∈ edges) (hk : keyOf e = some k) : k ∈ groupKeysOf edges := by
  unfold groupKeysOf
  exact mem_dedup_foldl _ k [] (Or.inr (List.mem_filterMap.mpr ⟨e, he, hk⟩))

/-- C10: every edge emitted by the face-culling step is axis-aligned with
length exactly the voxel edge length (40), so its merge-group key exists
(the branch of the merger that silently drops keyless edges is
unreachable on face-culling output) and the edge is preserved by the
grouping step: it appears in the concatenation of the per-key groups that
the merge pass processes. -/
theorem C10_culled_edges_axis_aligned (occ : List V3) (e : E3)
    (he : e ∈ boundaryEdges occ) :
    axisAligned40 e = true ∧ keyOf e ≠ none ∧
      e ∈ (groupKeysOf (boundaryEdges occ)).flatMap
        (fun k => (boundaryEdges occ).filter (fun e2 => keyOf e2 == some k)) := by
  have haa : axisAligned40 e = true := by
    obtain ⟨v, _, d, _, hcontrib⟩ := mem_boundaryEdges occ e he
    unfold faceContribution at hcontrib
    split at hcontrib
    · obtain ⟨raw, hraw, rfl⟩ := List.mem_map.mp hcontrib
      exact canonEdge_axisAligned raw (faceEdgesRaw_axisAligned _ _ raw hraw)
    · cases hcontrib
  have hkey : keyOf e ≠ none := keyOf_isSome_of_axisAligned e haa
  refine ⟨haa, hkey, ?_⟩
  obtain ⟨k, hk⟩ := Option.ne_none_iff_exists'.mp hkey
  refine List.mem_flatMap.mpr ⟨k, mem_groupKeysOf _ e k he hk, ?_⟩
  refine List.mem_filter.mpr ⟨he, ?_⟩
  simp [hk]

set_option maxRecDepth 4000 in
theorem C10_culled_edges_axis_aligned_witness :
    (⟨-20, -20, -20, 20, -20, -20⟩ : E3) ∈
        boundaryEdges (occupiedVoxels [((0 : Int), (0 : Int), (0 : Int)), (80, 0, 0)]) ∧
    axisAligned40 ⟨-20, -20, -20, 20, -20, -20⟩ = true ∧
    keyOf ⟨-20, -20, -20, 20, -20, -20⟩ ≠ none := by
  have hmem : (⟨-20, -20, -20, 20, -20, -20⟩ : E3) ∈
      boundaryEdges (occupiedVoxels [((0 : Int), (0 : Int), (0 : Int)), (80, 0, 0)]) := by
    decide
  have h := C10_culled_edges_axis_aligned
    (occupiedVoxels [((0 : Int), (0 : Int), (0 : Int)), (80, 0, 0)]) _ hmem
  exact ⟨hmem, h.1, h.2.1⟩

theorem faceConn_trans (occ : List V3) {u v w : V3}
    (h1 : FaceConn occ u v) (h2 : FaceConn occ v w) : FaceConn occ u w := by
  induction h2 with
  | refl => exact h1
  | step _ hnb hocc ih => exact FaceConn.step ih hnb hocc

theorem mem_neighborsFace_x (v : V3) (s : Int) (hs : s = 1 ∨ s = -1) :
    (v.1 + s, v.2.1, v.2.2) ∈ neighborsFace v := by
  unfold neighborsFace
  rcases hs with rfl | rfl
  · exact List.mem_map.mpr ⟨(1, 0, 0), by simp, by simp [vadd]⟩
  · exact List.mem_map.mpr ⟨(-1, 0, 0), by simp, by simp [vadd]⟩

theorem mem_neighborsFace_y (v : V3) (s : Int) (hs : s = 1 ∨ s = -1) :
    (v.1, v.2.1 + s, v.2.2) ∈ neighborsFace v := by
  unfold neighborsFace
  rcases hs with rfl | rfl
  · exact List.mem_map.mpr ⟨(0, 1, 0), by simp, by simp [vadd]⟩
  · exact List.mem_map.mpr ⟨(0, -1, 0), by simp, by simp [vadd]⟩

theorem mem_neighborsFace_z (v : V3) (s : Int) (hs : s = 1 ∨ s = -1) :
    (v.1, v.2.1, v.2.2 + s) ∈ neighborsFace v := by
  unfold neighborsFace
  rcases hs with rfl | rfl
  · exact List.mem_map.mpr ⟨(0, 0, 1), by simp, by simp [vadd]⟩
  · exact List.mem_map.mpr ⟨(0, 0, -1), by simp, by simp [vadd]⟩

/-- The cell `mk x` lies on the corridor leg from `a` toward `b` whenever
`x` lies between them and is not the (excluded) endpoint `b`. -/
theorem mem_legCells (a b x : Int) (mk : Int → V3)
    (h1 : min a b ≤ x) (h2 : x ≤ max a b) (h3 : x ≠ b) :
    mk x ∈ legCells a b mk := by
  have harg : a + (if a < b then 1 else -1) * Int.ofNat (x - a).natAbs = x := by
    simp only [Int.ofNat_eq_natCast]
    split <;> omega
  rw [← harg]
  unfold legCells
  exact List.mem_map_of_mem (fun k => mk (a + (if a < b then 1 else -1) * Int.ofNat k))
    (List.mem_range.mpr (by omega : (x - a).natAbs < (b - a).natAbs))

theorem faceConn_segment_x (occ : List V3) (y z a : Int) :
    ∀ (n : Nat) (b : Int), (b - a).natAbs = n →
      (∀ x : Int, min a b ≤ x → x ≤ max a b → x ≠ a → (x, y, z) ∈ occ) →
      FaceConn occ (a, y, z) (b, y, z) := by
  intro n
  induction n with
  | zero =>
      intro b hb _
      have hba : b = a := by omega
      subst hba
      exact FaceConn.refl _
  | succ n ih =>
      intro b hb h
      have hne : b ≠ a := by omega
      by_cases hab : a < b
      · have hconn := ih (b - 1) (by omega)
          (fun x h1 h2 h3 => h x (by omega) (by omega) h3)
        have hmem : ((b : Int), y, z) ∈ occ := h b (by omega) (by omega) hne
        have hnb : ((b : Int), y, z) ∈ neighborsFace (b - 1, y, z) := by
          have := mem_neighborsFace_x (b - 1, y, z) 1 (Or.inl rfl)
          simpa using this
        exact FaceConn.step hconn hnb hmem
      · have hconn := ih (b + 1) (by omega)
          (fun x h1 h2 h3 => h x (by omega) (by omega) h3)
        have hmem : ((b : Int), y, z) ∈ occ := h b (by omega) (by omega) hne
        have hnb : ((b : Int), y, z) ∈ neighborsFace (b + 1, y, z) := by
          have := mem_neighborsFace_x (b + 1, y, z) (-1) (Or.inr rfl)
          simpa using this
        exact FaceConn.step hconn hnb hmem

theorem faceConn_segment_y (occ : List V3) (x z a : Int) :
    ∀ (n : Nat) (b : Int), (b - a).natAbs = n →
      (∀ y : Int, min a b ≤ y → y ≤ max a b → y ≠ a → (x, y, z) ∈ occ) →
      FaceConn occ (x, a, z) (x, b, z) := by
  intro n
  induction n with
  | zero =>
      intro b hb _
      have hba : b = a := by omega
      subst hba
      exact FaceConn.refl _
  | succ n ih =>
      intro b hb h
      have hne : b ≠ a := by omega
      by_cases hab : a < b
      · have hconn := ih (b - 1) (by omega)
          (fun y h1 h2 h3 => h y (by omega) (by omega) h3)
        have hmem : (x, (b : Int), z) ∈ occ := h b (by omega) (by omega) hne
        have hnb : (x, (b : Int), z) ∈ neighborsFace (x, b - 1, z) := by
          have := mem_neighborsFace_y (x, b - 1, z) 1 (Or.inl rfl)
          simpa using this
        exact FaceConn.step hconn hnb hmem
      · have hconn := ih (b + 1) (by omega)
          (fun y h1 h2 h3 => h y (by omega) (by omega) h3)
        have hmem : (x, (b : Int), z) ∈ occ := h b (by omega) (by omega) hne
        have hnb : (x, (b : Int), z) ∈ neighborsFace (x, b + 1, z) := by
          have := mem_neighborsFace_y (x, b + 1, z) (-1) (Or.inr rfl)
          simpa using this
        exact FaceConn.step hconn hnb hmem

theorem faceConn_segment_z (occ : List V3) (x y a : Int) :
    ∀ (n : Nat) (b : Int), (b - a).natAbs = n →
      (∀ z : Int, min a b ≤ z → z ≤ max a b → z ≠ a → (x, y, z) ∈ occ) →
      FaceConn occ (x, y, a) (x, y, b) := by
  intro n
  induction n with
  | zero =>
      intro b hb _
      have hba : b = a := by omega
      subst hba
      exact FaceConn.refl _
  | succ n ih =>
      intro b hb h
      have hne : b ≠ a := by omega
      by_cases hab : a < b
      · have hconn := ih (b - 1) (by omega)
          (fun z h1 h2 h3 => h z (by omega) (by omega) h3)
        have hmem : (x, y, (b : Int)) ∈ occ := h b (by omega) (by omega) hne
        have hnb : (x, y, (b : Int)) ∈ neighborsFace (x, y, b - 1) := by
          have := mem_neighborsFace_z (x, y, b - 1) 1 (Or.inl rfl)
          simpa using this
        exact FaceConn.step hconn hnb hmem
      · have hconn := ih (b + 1) (by omega)
          (fun z h1 h2 h3 => h z (by omega) (by omega) h3)
        have hmem : (x, y, (b : Int)) ∈ occ := h b (by omega) (by omega) hne
        have hnb : (x, y, (b : Int)) ∈ neighborsFace (x, y, b + 1) := by
          have := mem_neighborsFace_z (x, y, b + 1) (-1) (Or.inr rfl)
          simpa using this
        exact FaceConn.step hconn hnb hmem

/-- If all cells of the Manhattan corridor from `p` to `q` and the target
voxel `q` itself are occupied, then `p` and `q` are face-connected within
the occupancy set. -/
theorem faceConn_corridor (occ : List V3) (p q : V3)
    (hc : ∀ c ∈ corridorCells p q, c ∈ occ) (hq : q ∈ occ) :
    FaceConn occ p q := by
  obtain ⟨px, py, pz⟩ := p
  obtain ⟨qx, qy, qz⟩ := q
  have hseg1 : FaceConn occ (px, py, pz) (qx, py, pz) := by
    apply faceConn_segment_x occ py pz px ((qx - px).natAbs) qx rfl
    intro x h1 h2 h3
    by_cases hxb : x = qx
    · subst hxb
      by_cases hy : py = qy
      · by_cases hz : pz = qz
        · subst hy; subst hz; exact hq
        · subst hy
          apply hc
          unfold corridorCells
          refine List.mem_append.mpr (Or.inr ?_)
          exact mem_legCells pz qz pz _ (by omega) (by omega) hz
      · apply hc
        unfold corridorCells
        refine List.mem_append.mpr (Or.inl (List.mem_append.mpr (Or.inr ?_)))
        exact mem_legCells py qy py _ (by omega) (by omega) hy
    · apply hc
      unfold corridorCells
      refine List.mem_append.mpr (Or.inl (List.mem_append.mpr (Or.inl ?_)))
      exact mem_legCells px qx x (fun t => (t, py, pz)) (by omega) (by omega) hxb
  have hseg2 : FaceConn occ (qx, py, pz) (qx, qy, pz) := by
    apply faceConn_segment_y occ qx pz py ((qy - py).natAbs) qy rfl
    intro y h1 h2 h3
    by_cases hyb : y = qy
    · subst hyb
      by_cases hz : pz = qz
      · subst hz; exact hq
      · apply hc
        unfold corridorCells
        refine List.mem_append.mpr (Or.inr ?_)
        exact mem_legCells pz qz pz _ (by omega) (by omega) hz
    · apply hc
      unfold corridorCells
      refine List.mem_append.mpr (Or.inl (List.mem_append.mpr (Or.inr ?_)))
      exact mem_legCells py qy y (fun t => (qx, t, pz)) (by omega) (by omega) hyb
  have hseg3 : FaceConn occ (qx, qy, pz) (qx, qy, qz) := by
    apply faceConn_segment_z occ qx qy pz ((qz - pz).natAbs) qz rfl
    intro z h1 h2 h3
    by_cases hzb : z = qz
    · subst hzb; exact hq
    · apply hc
      unfold corridorCells
      refine List.mem_append.mpr (Or.inr ?_)
      exact mem_legCells pz qz z (fun t => (qx, qy, t)) (by omega) (by omega) hzb
  exact faceConn_trans occ (faceConn_trans occ hseg1 hseg2) hseg3

theorem mem_addVox_self (l : List V3) (v : V3) : v ∈ addVox l v := by
  unfold addVox
  split
  · rename_i hcon
    exact List.mem_of_elem_eq_true hcon
  · exact List.mem_append_right _ (List.mem_singleton.mpr rfl)

theorem mem_addVox_mono (l : List V3) (w v : V3) (h : v ∈ l) : v ∈ addVox l w := by
  unfold addVox
  split
  · exact h
  · exact List.mem_append_left _ h

theorem mem_foldl_addVox_mono (l : List V3) (acc : List V3) (v : V3) (h : v ∈ acc) :
    v ∈ l.foldl addVox acc := by
  induction l generalizing acc with
  | nil => exact h
  | cons w ws ih => exact ih (addVox acc w) (mem_addVox_mono acc w v h)

theorem mem_foldl_addVox_of_mem (l : List V3) (acc : List V3) (v : V3) (h : v ∈ l) :
    v ∈ l.foldl addVox acc := by
  induction l generalizing acc with
  | nil => cases h
  | cons w ws ih =>
      rcases List.mem_cons.mp h with rfl | h'
      · exact mem_foldl_addVox_mono ws (addVox acc v) v (mem_addVox_self acc v)
      · exact ih (addVox acc w) h'

theorem carveCorridors_mono (vs : List V3) (l : List Nat) (acc : List V3) (v : V3)
    (h : v ∈ acc) :
    v ∈ l.foldl (fun acc2 i =>
      match nearestIdx vs i with
      | some j => (corridorCells (vs.getD i (0, 0, 0)) (vs.getD j (0, 0, 0))).foldl addVox acc2
      | none => acc2) acc := by
  induction l generalizing acc with
  | nil => exact h
  | cons i is ih =>
      apply ih
      cases hn : nearestIdx vs i with
      | none => simpa [hn] using h
      | some j =>
          simp only [hn]
          exact mem_foldl_addVox_mono _ acc v h

theorem carveCorridors_insert (vs : List V3) (i j : Nat) (hij : nearestIdx vs i = some j)
    (c : V3) (hc : c ∈ corridorCells (vs.getD i (0, 0, 0)) (vs.getD j (0, 0, 0))) :
    ∀ (l : List Nat) (acc : List V3), i ∈ l →
      c ∈ l.foldl (fun acc2 i2 =>
        match nearestIdx vs i2 with
        | some j2 =>
            (corridorCells (vs.getD i2 (0, 0, 0)) (vs.getD j2 (0, 0, 0))).foldl addVox acc2
        | none => acc2) acc := by
  intro l
  induction l with
  | nil => intro acc h; cases h
  | cons i2 is ih =>
      intro acc hmem
      rcases List.mem_cons.mp hmem with rfl | h'
      · rw [List.foldl_cons]
        apply carveCorridors_mono
        show c ∈ (match nearestIdx vs i with
          | some j2 =>
              (corridorCells (vs.getD i (0, 0, 0)) (vs.getD j2 (0, 0, 0))).foldl addVox acc
          | none => acc)
        rw [hij]
        exact mem_foldl_addVox_of_mem _ acc c hc
      · exact ih _ h'

theorem nearestIdx_lt (vs : List V3) (i : Nat) (j : Nat) (h : nearestIdx vs i = some j) :
    j < vs.length := by
  unfold nearestIdx at h
  suffices hgen : ∀ (l : List Nat) (acc : Option Nat),
      (∀ b, acc = some b → b < vs.length) → (∀ x ∈ l, x < vs.length) →
      ∀ b, l.foldl (fun best j2 =>
        if j2 = i then best
        else
          match best with
          | none => some j2
          | some b2 =>
              if sqDist (vs.getD i (0, 0, 0)) (vs.getD j2 (0, 0, 0)) <
                  sqDist (vs.getD i (0, 0, 0)) (vs.getD b2 (0, 0, 0)) then
                some j2
              else best) acc = some b → b < vs.length by
    exact hgen (List.range vs.length) none (by simp) (fun x hx => List.mem_range.mp hx) j h
  intro l
  induction l with
  | nil => intro acc hacc _ b hb; exact hacc b hb
  | cons x xs ih =>
      intro acc hacc hl b hb
      apply ih _ ?_ (fun x2 hx2 => hl x2 (List.mem_cons_of_mem x hx2)) b hb
      intro b2 hb2
      by_cases hxi : x = i
      · simp only [hxi, if_true] at hb2
        exact hacc b2 hb2
      · simp only [hxi, if_false] at hb2
        cases hacc0 : acc with
        | none =>
            rw [hacc0] at hb2
            simp only [] at hb2
            cases hb2
            exact hl x (List.mem_cons_self x xs)
        | some b0 =>
            rw [hacc0] at hb2
            simp only [] at hb2
            split at hb2
            · cases hb2
              exact hl x (List.mem_cons_self x xs)
            · exact hacc b2 (by rw [hacc0, hb2])

theorem getD_mem_of_lt {α : Type} (l : List α) (i : Nat) (d : α) (h : i < l.length) :
    l.getD i d ∈ l := by
  induction l generalizing i with
  | nil => simp at h
  | cons x xs ih =>
      cases i with
      | zero => exact List.mem_cons_self x xs
      | succ i2 => exact List.mem_cons_of_mem x (ih i2 (by simpa using h))

/-- C8 (amended): corridor carving guarantees that each node voxel is
face-connected, within the final occupied set, to its nearest other node
voxel; the occupied set as a whole need not be a single connected
component (see the counterexample), but every node voxel with a nearest
neighbor reaches it through occupied face-adjacent voxels. -/
theorem C8_node_voxel_connected_to_nearest (ps : List V3) (i j : Nat)
    (hi : i < ps.length)
    (hij : nearestIdx (ps.map voxelCoordOf) i = some j) :
    FaceConn (occupiedVoxels ps)
      ((ps.map voxelCoordOf).getD i (0, 0, 0))
      ((ps.map voxelCoordOf).getD j (0, 0, 0)) := by
  have hlen : (ps.map voxelCoordOf).length = ps.length := List.length_map _ _
  have hjlt : j < (ps.map voxelCoordOf).length := nearestIdx_lt _ i j hij
  have hocc : occupiedVoxels ps =
      (List.range (ps.map voxelCoordOf).length).foldl
        (fun acc2 i2 =>
          match nearestIdx (ps.map voxelCoordOf) i2 with
          | some j2 =>
              (corridorCells ((ps.map voxelCoordOf).getD i2 (0, 0, 0))
                ((ps.map voxelCoordOf).getD j2 (0, 0, 0))).foldl addVox acc2
          | none => acc2)
        ((ps.map voxelCoordOf).foldl addVox []) := rfl
  apply faceConn_corridor
  · intro c hc
    rw [hocc]
    apply carveCorridors_insert (ps.map voxelCoordOf) i j hij c hc
    exact List.mem_range.mpr (by omega)
  · rw [hocc]
    apply carveCorridors_mono
    exact mem_foldl_addVox_of_mem _ [] _ (getD_mem_of_lt _ j _ hjlt)

theorem C8_node_voxel_connected_to_nearest_witness :
    FaceConn (occupiedVoxels [((0 : Int), (0 : Int), (0 : Int)), (80, 0, 0)])
      (([((0 : Int), (0 : Int), (0 : Int)), (80, 0, 0)].map voxelCoordOf).getD 0 (0, 0, 0))
      (([((0 : Int), (0 : Int), (0 : Int)), (80, 0, 0)].map voxelCoordOf).getD 1 (0, 0, 0)) :=
  C8_node_voxel_connected_to_nearest [((0 : Int), (0 : Int), (0 : Int)), (80, 0, 0)] 0 1
    (by decide) (by decide)

/-- C9 counterexample: the merge pass is not idempotent on arbitrary edge
lists: merging the forward segment (0,0,0)-(20,0,0) with its reversed
copy (20,0,0)-(0,0,0) collapses them to a degenerate zero-length segment,
which a second pass silently drops, so the second application returns a
different (empty) list. -/
theorem C9_merge_not_idempotent_on_reversed_edges :
    mergePass [⟨0, 0, 0, 20, 0, 0⟩, ⟨20, 0, 0, 0, 0, 0⟩] = [⟨0, 0, 0, 0, 0, 0⟩] ∧
    mergePass (mergePass [⟨0, 0, 0, 20, 0, 0⟩, ⟨20, 0, 0, 0, 0, 0⟩]) = [] ∧
    mergePass (mergePass [⟨0, 0, 0, 20, 0, 0⟩, ⟨20, 0, 0, 0, 0, 0⟩]) ≠
      mergePass [⟨0, 0, 0, 20, 0, 0⟩, ⟨20, 0, 0, 0, 0, 0⟩] := by
  decide

/-- An edge in the canonical orientation produced by the `addEdge`
deduplication: its endpoints differ in exactly one axis, with the
coordinates strictly increasing along that axis. -/
def canonicalOriented (e : E3) : Bool :=
  (decide (e.x1 < e.x2) && e.y1 == e.y2 && e.z1 == e.z2) ||
    (e.x1 == e.x2 && decide (e.y1 < e.y2) && e.z1 == e.z2) ||
      (e.x1 == e.x2 && e.y1 == e.y2 && decide (e.z1 < e.z2))

/-- The coordinate of an edge endpoint along the varying axis. -/
def lowEnd (a : Axis) (e : E3) : Int :=
  match a with
  | Axis.x => e.x1
  | Axis.y => e.y1
  | Axis.z => e.z1

def highEnd (a : Axis) (e : E3) : Int :=
  match a with
  | Axis.x => e.x2
  | Axis.y => e.y2
  | Axis.z => e.z2

/-- A well-formed member of the merge group with key `k`: strictly
increasing along the key's axis and lying in the key's plane. -/
def GoodSeg (k : Axis × Int × Int) (e : E3) : Prop :=
  match k with
  | (Axis.x, p, q) => e.x1 < e.x2 ∧ e.y1 = p ∧ e.y2 = p ∧ e.z1 = q ∧ e.z2 = q
  | (Axis.y, p, q) => e.y1 < e.y2 ∧ e.x1 = p ∧ e.x2 = p ∧ e.z1 = q ∧ e.z2 = q
  | (Axis.z, p, q) => e.z1 < e.z2 ∧ e.x1 = p ∧ e.x2 = p ∧ e.y1 = q ∧ e.y2 = q

theorem GoodSeg_keyOf (k : Axis × Int × Int) (e : E3) (h : GoodSeg k e) :
    keyOf e = some k := by
  obtain ⟨a, p, q⟩ := k
  cases a with
  | x =>
      simp only [GoodSeg] at h
      obtain ⟨h1, h2, h3, h4, h5⟩ := h
      have hcnd : e.x1 ≠ e.x2 ∧ e.y1 = e.y2 ∧ e.z1 = e.z2 := ⟨by omega, by omega, by omega⟩
      unfold keyOf
      rw [if_pos hcnd, h2, h4]
  | y =>
      simp only [GoodSeg] at h
      obtain ⟨h1, h2, h3, h4, h5⟩ := h
      have hn1 : ¬(e.x1 ≠ e.x2 ∧ e.y1 = e.y2 ∧ e.z1 = e.z2) := fun hcc => hcc.1 (by omega)
      have hcnd : e.y1 ≠ e.y2 ∧ e.x1 = e.x2 ∧ e.z1 = e.z2 := ⟨by omega, by omega, by omega⟩
      unfold keyOf
      rw [if_neg hn1, if_pos hcnd, h2, h4]
  | z =>
      simp only [GoodSeg] at h
      obtain ⟨h1, h2, h3, h4, h5⟩ := h
      have hn1 : ¬(e.x1 ≠ e.x2 ∧ e.y1 = e.y2 ∧ e.z1 = e.z2) := fun hcc => hcc.1 (by omega)
      have hn2 : ¬(e.y1 ≠ e.y2 ∧ e.x1 = e.x2 ∧ e.z1 = e.z2) := fun hcc => hcc.1 (by omega)
      have hcnd : e.z1 ≠ e.z2 ∧ e.x1 = e.x2 ∧ e.y1 = e.y2 := ⟨by omega, by omega, by omega⟩
      unfold keyOf
      rw [if_neg hn1, if_neg hn2, if_pos hcnd, h2, h4]

theorem GoodSeg_of_canonical (e : E3) (k : Axis × Int × Int)
    (hc : canonicalOriented e = true) (hk : keyOf e = some k) : GoodSeg k e := by
  simp only [canonicalOriented, Bool.or_eq_true, Bool.and_eq_true, beq_iff_eq,
    decide_eq_true_eq] at hc
  obtain ⟨a, p, q⟩ := k
  unfold keyOf at hk
  split at hk
  · rename_i hcond
    simp only [Option.some.injEq, Prod.mk.injEq] at hk
    obtain ⟨ha, hp, hq⟩ := hk
    subst ha; subst hp; subst hq
    simp only [GoodSeg]
    rcases hc with (⟨⟨h1, h2⟩, h3⟩ | ⟨⟨h1, h2⟩, h3⟩) | ⟨⟨h1, h2⟩, h3⟩ <;>
      exact ⟨by omega, trivial, by omega, trivial, by omega⟩
  · split at hk
    · rename_i hcond
      simp only [Option.some.injEq, Prod.mk.injEq] at hk
      obtain ⟨ha, hp, hq⟩ := hk
      subst ha; subst hp; subst hq
      simp only [GoodSeg]
      rcases hc with (⟨⟨h1, h2⟩, h3⟩ | ⟨⟨h1, h2⟩, h3⟩) | ⟨⟨h1, h2⟩, h3⟩ <;>
        exact ⟨by omega, trivial, by omega, trivial, by omega⟩
    · split at hk
      · rename_i hcond
        simp only [Option.some.injEq, Prod.mk.injEq] at hk
        obtain ⟨ha, hp, hq⟩ := hk
        subst ha; subst hp; subst hq
        simp only [GoodSeg]
        rcases hc with (⟨⟨h1, h2⟩, h3⟩ | ⟨⟨h1, h2⟩, h3⟩) | ⟨⟨h1, h2⟩, h3⟩ <;>
          exact ⟨by omega, trivial, by omega, trivial, by omega⟩
      · cases hk

theorem fwd_eq (a : Axis) (cur e : E3) : fwd a cur e = (highEnd a cur == lowEnd a e) := by
  cases a <;> rfl

theorem bwd_eq (a : Axis) (cur e : E3) : bwd a cur e = (lowEnd a cur == highEnd a e) := by
  cases a <;> rfl

theorem extendFwd_low (a : Axis) (cur e : E3) :
    lowEnd a (extendFwd a cur e) = lowEnd a cur := by
  cases a <;> rfl

theorem extendFwd_high (a : Axis) (cur e : E3) :
    highEnd a (extendFwd a cur e) = highEnd a e := by
  cases a <;> rfl

theorem extendBwd_low (a : Axis) (cur e : E3) :
    lowEnd a (extendBwd a cur e) = lowEnd a e := by
  cases a <;> rfl

theorem extendBwd_high (a : Axis) (cur e : E3) :
    highEnd a (extendBwd a cur e) = highEnd a cur := by
  cases a <;> rfl

theorem extendFwd_good (k : Axis × Int × Int) (cur e : E3)
    (hc : GoodSeg k cur) (he : GoodSeg k e) (hf : fwd k.1 cur e = true) :
    GoodSeg k (extendFwd k.1 cur e) := by
  obtain ⟨a, p, q⟩ := k
  cases a <;>
    · simp only [GoodSeg, extendFwd] at hc he ⊢
      simp only [fwd, tolEq, beq_iff_eq] at hf
      obtain ⟨c1, c2, c3, c4, c5⟩ := hc
      obtain ⟨d1, d2, d3, d4, d5⟩ := he
      exact ⟨by omega, by omega, by omega, by omega, by omega⟩

theorem extendBwd_good (k : Axis × Int × Int) (cur e : E3)
    (hc : GoodSeg k cur) (he : GoodSeg k e) (hf : bwd k.1 cur e = true) :
    GoodSeg k (extendBwd k.1 cur e) := by
  obtain ⟨a, p, q⟩ := k
  cases a <;>
    · simp only [GoodSeg, extendBwd] at hc he ⊢
      simp only [bwd, tolEq, beq_iff_eq] at hf
      obtain ⟨c1, c2, c3, c4, c5⟩ := hc
      obtain ⟨d1, d2, d3, d4, d5⟩ := he
      exact ⟨by omega, by omega, by omega, by omega, by omega⟩

theorem mergeScan_subset (a : Axis) (segs : List E3) :
    ∀ (cur : E3) (s : E3), s ∈ (mergeScan a cur segs).2.1 → s ∈ segs := by
  induction segs with
  | nil => intro cur s h; simp [mergeScan] at h
  | cons e es ih =>
      intro cur s h
      by_cases hf : fwd a cur e
      · simp only [mergeScan, hf, Bool.false_eq_true, if_true, if_false] at h
        exact List.mem_cons_of_mem e (ih (extendFwd a cur e) s h)
      · by_cases hb : bwd a cur e
        · simp only [mergeScan, hf, hb, Bool.false_eq_true, if_true, if_false] at h
          exact List.mem_cons_of_mem e (ih (extendBwd a cur e) s h)
        · simp only [mergeScan, hf, hb, Bool.false_eq_true, if_true, if_false] at h
          rcases List.mem_cons.mp h with rfl | h'
          · exact List.mem_cons_self s es
          · exact List.mem_cons_of_mem e (ih cur s h')

theorem mergeScan_good (k : Axis × Int × Int) (segs : List E3) :
    ∀ (cur : E3), GoodSeg k cur → (∀ s ∈ segs, GoodSeg k s) →
      GoodSeg k (mergeScan k.1 cur segs).1 := by
  induction segs with
  | nil => intro cur hc _; simpa [mergeScan] using hc
  | cons e es ih =>
      intro cur hc hs
      by_cases hf : fwd k.1 cur e
      · simp only [mergeScan, hf, Bool.false_eq_true, if_true, if_false]
        exact ih (extendFwd k.1 cur e)
          (extendFwd_good k cur e hc (hs e (List.mem_cons_self e es)) hf)
          (fun s hsm => hs s (List.mem_cons_of_mem e hsm))
      · by_cases hb : bwd k.1 cur e
        · simp only [mergeScan, hf, hb, Bool.false_eq_true, if_true, if_false]
          exact ih (extendBwd k.1 cur e)
            (extendBwd_good k cur e hc (hs e (List.mem_cons_self e es)) hb)
            (fun s hsm => hs s (List.mem_cons_of_mem e hsm))
        · simp only [mergeScan, hf, hb, Bool.false_eq_true, if_true, if_false]
          exact ih cur hc (fun s hsm => hs s (List.mem_cons_of_mem e hsm))

theorem mergeScan_low (a : Axis) (segs : List E3) :
    ∀ (cur : E3), lowEnd a (mergeScan a cur segs).1 = lowEnd a cur ∨
      ∃ s ∈ segs, lowEnd a (mergeScan a cur segs).1 = lowEnd a s := by
  induction segs with
  | nil => intro cur; left; simp [mergeScan]
  | cons e es ih =>
      intro cur
      by_cases hf : fwd a cur e
      · simp only [mergeScan, hf, Bool.false_eq_true, if_true, if_false]
        rcases ih (extendFwd a cur e) with h | ⟨s, hs, h⟩
        · left
          rw [h, extendFwd_low]
        · exact Or.inr ⟨s, List.mem_cons_of_mem e hs, h⟩
      · by_cases hb : bwd a cur e
        · simp only [mergeScan, hf, hb, Bool.false_eq_true, if_true, if_false]
          rcases ih (extendBwd a cur e) with h | ⟨s, hs, h⟩
          · right
            exact ⟨e, List.mem_cons_self e es, by rw [h, extendBwd_low]⟩
          · exact Or.inr ⟨s, List.mem_cons_of_mem e hs, h⟩
        · simp only [mergeScan, hf, hb, Bool.false_eq_true, if_true, if_false]
          rcases ih cur with h | ⟨s, hs, h⟩
          · exact Or.inl h
          · exact Or.inr ⟨s, List.mem_cons_of_mem e hs, h⟩

theorem mergeScan_high (a : Axis) (segs : List E3) :
    ∀ (cur : E3), highEnd a (mergeScan a cur segs).1 = highEnd a cur ∨
      ∃ s ∈ segs, highEnd a (mergeScan a cur segs).1 = highEnd a s := by
  induction segs with
  | nil => intro cur; left; simp [mergeScan]
  | cons e es ih =>
      intro cur
      by_cases hf : fwd a cur e
      · simp only [mergeScan, hf, Bool.false_eq_true, if_true, if_false]
        rcases ih (extendFwd a cur e) with h | ⟨s, hs, h⟩
        · right
          exact ⟨e, List.mem_cons_self e es, by rw [h, extendFwd_high]⟩
        · exact Or.inr ⟨s, List.mem_cons_of_mem e hs, h⟩
      · by_cases hb : bwd a cur e
        · simp only [mergeScan, hf, hb, Bool.false_eq_true, if_true, if_false]
          rcases ih (extendBwd a cur e) with h | ⟨s, hs, h⟩
          · left
            rw [h, extendBwd_high]
          · exact Or.inr ⟨s, List.mem_cons_of_mem e hs, h⟩
        · simp only [mergeScan, hf, hb, Bool.false_eq_true, if_true, if_false]
          rcases ih cur with h | ⟨s, hs, h⟩
          · exact Or.inl h
          · exact Or.inr ⟨s, List.mem_cons_of_mem e hs, h⟩

theorem mergeScan_flag_false (a : Axis) (segs : List E3) :
    ∀ (cur : E3), (mergeScan a cur segs).2.2 = false →
      (mergeScan a cur segs).1 = cur ∧ (mergeScan a cur segs).2.1 = segs ∧
        ∀ s ∈ segs, fwd a cur s = false ∧ bwd a cur s = false := by
  induction segs with
  | nil => intro cur _; exact ⟨rfl, rfl, fun s hs => absurd hs (List.not_mem_nil s)⟩
  | cons e es ih =>
      intro cur h
      by_cases hf : fwd a cur e
      · simp [mergeScan, hf] at h
      · by_cases hb : bwd a cur e
        · simp [mergeScan, hf, hb] at h
        · simp only [mergeScan, hf, hb, Bool.false_eq_true, if_true, if_false] at h ⊢
          obtain ⟨h1, h2, h3⟩ := ih cur h
          refine ⟨h1, by rw [h2], fun s hs => ?_⟩
          rcases List.mem_cons.mp hs with rfl | hs'
          · exact ⟨Bool.not_eq_true _ ▸ (by simpa using hf),
              Bool.not_eq_true _ ▸ (by simpa using hb)⟩
          · exact h3 s hs'

theorem mergeScan_no_merge (a : Axis) (segs : List E3) :
    ∀ (cur : E3), (∀ s ∈ segs, fwd a cur s = false ∧ bwd a cur s = false) →
      mergeScan a cur segs = (cur, segs, false) := by
  induction segs with
  | nil => intro cur _; rfl
  | cons e es ih =>
      intro cur h
      have he := h e (List.mem_cons_self e es)
      simp only [mergeScan, he.1, he.2, Bool.false_eq_true, if_false]
      rw [ih cur (fun s hs => h s (List.mem_cons_of_mem e hs))]

theorem mergeClosureF_subset (fuel : Nat) :
    ∀ (a : Axis) (cur : E3) (segs : List E3) (s : E3),
      s ∈ (mergeClosureF fuel a cur segs).2 → s ∈ segs := by
  induction fuel with
  | zero => intro a cur segs s h; exact h
  | succ fuel ih =>
      intro a cur segs s h
      simp only [mergeClosureF] at h
      by_cases hflag : (mergeScan a cur segs).2.2 = true
      · rw [if_pos hflag] at h
        exact mergeScan_subset a segs cur s (ih a _ _ s h)
      · rw [if_neg hflag] at h
        exact mergeScan_subset a segs cur s h

theorem mergeClosure_subset (a : Axis) (cur : E3) (segs : List E3) (s : E3)
    (h : s ∈ (mergeClosure a cur segs).2) : s ∈ segs :=
  mergeClosureF_subset (segs.length + 1) a cur segs s h

theorem mergeClosureF_good (fuel : Nat) :
    ∀ (k : Axis × Int × Int) (cur : E3) (segs : List E3),
      GoodSeg k cur → (∀ s ∈ segs, GoodSeg k s) →
        GoodSeg k (mergeClosureF fuel k.1 cur segs).1 := by
  induction fuel with
  | zero => intro k cur segs hc _; exact hc
  | succ fuel ih =>
      intro k cur segs hc hs
      simp only [mergeClosureF]
      by_cases hflag : (mergeScan k.1 cur segs).2.2 = true
      · rw [if_pos hflag]
        exact ih k _ _ (mergeScan_good k segs cur hc hs)
          (fun s hsm => hs s (mergeScan_subset k.1 segs cur s hsm))
      · rw [if_neg hflag]
        exact mergeScan_good k segs cur hc hs

theorem mergeClosure_good (k : Axis × Int × Int) (cur : E3) (segs : List E3)
    (hc : GoodSeg k cur) (hs : ∀ s ∈ segs, GoodSeg k s) :
    GoodSeg k (mergeClosure k.1 cur segs).1 :=
  mergeClosureF_good (segs.length + 1) k cur segs hc hs

theorem mergeClosureF_low (fuel : Nat) :
    ∀ (a : Axis) (cur : E3) (segs : List E3),
      lowEnd a (mergeClosureF fuel a cur segs).1 = lowEnd a cur ∨
        ∃ s ∈ segs, lowEnd a (mergeClosureF fuel a cur segs).1 = lowEnd a s := by
  induction fuel with
  | zero => intro a cur segs; left; rfl
  | succ fuel ih =>
      intro a cur segs
      simp only [mergeClosureF]
      by_cases hflag : (mergeScan a cur segs).2.2 = true
      · rw [if_pos hflag]
        rcases ih a (mergeScan a cur segs).1 (mergeScan a cur segs).2.1 with h | ⟨s, hs, h⟩
        · rw [h]
          rcases mergeScan_low a segs cur with h2 | ⟨s, hs, h2⟩
          · exact Or.inl h2
          · exact Or.inr ⟨s, hs, h2⟩
        · exact Or.inr ⟨s, mergeScan_subset a segs cur s hs, h⟩
      · rw [if_neg hflag]
        rcases mergeScan_low a segs cur with h2 | ⟨s, hs, h2⟩
        · exact Or.inl h2
        · exact Or.inr ⟨s, hs, h2⟩

theorem mergeClosure_low (a : Axis) (cur : E3) (segs : List E3) :
    lowEnd a (mergeClosure a cur segs).1 = lowEnd a cur ∨
      ∃ s ∈ segs, lowEnd a (mergeClosure a cur segs).1 = lowEnd a s :=
  mergeClosureF_low (segs.length + 1) a cur segs

theorem mergeClosureF_high (fuel : Nat) :
    ∀ (a : Axis) (cur : E3) (segs : List E3),
      highEnd a (mergeClosureF fuel a cur segs).1 = highEnd a cur ∨
        ∃ s ∈ segs, highEnd a (mergeClosureF fuel a cur segs).1 = highEnd a s := by
  induction fuel with
  | zero => intro a cur segs; left; rfl
  | succ fuel ih =>
      intro a cur segs
      simp only [mergeClosureF]
      by_cases hflag : (mergeScan a cur segs).2.2 = true
      · rw [if_pos hflag]
        rcases ih a (mergeScan a cur segs).1 (mergeScan a cur segs).2.1 with h | ⟨s, hs, h⟩
        · rw [h]
          rcases mergeScan_high a segs cur with h2 | ⟨s, hs, h2⟩
          · exact Or.inl h2
          · exact Or.inr ⟨s, hs, h2⟩
        · exact Or.inr ⟨s, mergeScan_subset a segs cur s hs, h⟩
      · rw [if_neg hflag]
        rcases mergeScan_high a segs cur with h2 | ⟨s, hs, h2⟩
        · exact Or.inl h2
        · exact Or.inr ⟨s, hs, h2⟩

theorem mergeClosure_high (a : Axis) (cur : E3) (segs : List E3) :
    highEnd a (mergeClosure a cur segs).1 = highEnd a cur ∨
      ∃ s ∈ segs, highEnd a (mergeClosure a cur segs).1 = highEnd a s :=
  mergeClosureF_high (segs.length + 1) a cur segs

theorem mergeClosureF_post (fuel : Nat) :
    ∀ (a : Axis) (cur : E3) (segs : List E3), segs.length < fuel →
      ∀ s ∈ (mergeClosureF fuel a cur segs).2,
        fwd a (mergeClosureF fuel a cur segs).1 s = false ∧
          bwd a (mergeClosureF fuel a cur segs).1 s = false := by
  induction fuel with
  | zero => intro a cur segs h; omega
  | succ fuel ih =>
      intro a cur segs hlen s hs
      simp only [mergeClosureF] at hs ⊢
      by_cases hflag : (mergeScan a cur segs).2.2 = true
      · rw [if_pos hflag] at hs ⊢
        have hlt := mergeScan_length_lt a cur segs hflag
        exact ih a (mergeScan a cur segs).1 (mergeScan a cur segs).2.1 (by omega) s hs
      · rw [if_neg hflag] at hs ⊢
        obtain ⟨h1, h2, h3⟩ := mergeScan_flag_false a segs cur (Bool.not_eq_true _ ▸ hflag)
        rw [h1]
        exact h3 s (h2 ▸ hs)

theorem mergeClosure_post (a : Axis) (cur : E3) (segs : List E3) :
    ∀ s ∈ (mergeClosure a cur segs).2,
      fwd a (mergeClosure a cur segs).1 s = false ∧
        bwd a (mergeClosure a cur segs).1 s = false :=
  mergeClosureF_post (segs.length + 1) a cur segs (by omega)

theorem mergeClosure_id (a : Axis) (cur : E3) (segs : List E3)
    (h : ∀ s ∈ segs, fwd a cur s = false ∧ bwd a cur s = false) :
    mergeClosure a cur segs = (cur, segs) := by
  rw [mergeClosure_eq, mergeScan_no_merge a segs cur h]
  simp

theorem mergeChains_good (k : Axis × Int × Int) :
    ∀ (n : Nat) (l : List E3), l.length ≤ n → (∀ s ∈ l, GoodSeg k s) →
      ∀ c ∈ mergeChains k.1 l, GoodSeg k c := by
  intro n
  induction n with
  | zero =>
      intro l hlen _ c hc
      have : l = [] := List.length_eq_zero.mp (Nat.le_zero.mp hlen)
      subst this
      cases hc
  | succ n ih =>
      intro l hlen hs c hc
      match l with
      | [] => cases hc
      | seed :: rest =>
          rw [mergeChains_cons] at hc
          rcases List.mem_cons.mp hc with rfl | hc'
          · exact mergeClosure_good k seed rest (hs seed (List.mem_cons_self seed rest))
              (fun s hsm => hs s (List.mem_cons_of_mem seed hsm))
          · have hle := mergeClosure_length_le k.1 seed rest
            refine ih (mergeClosure k.1 seed rest).2 (by simp at hlen; omega)
              (fun s hsm => hs s
                (List.mem_cons_of_mem seed (mergeClosure_subset k.1 seed rest s hsm)))
              c hc'

theorem mergeChains_ends (a : Axis) :
    ∀ (n : Nat) (l : List E3), l.length ≤ n →
      ∀ c ∈ mergeChains a l,
        (∃ s ∈ l, lowEnd a c = lowEnd a s) ∧ (∃ s ∈ l, highEnd a c = highEnd a s) := by
  intro n
  induction n with
  | zero =>
      intro l hlen c hc
      have : l = [] := List.length_eq_zero.mp (Nat.le_zero.mp hlen)
      subst this
      cases hc
  | succ n ih =>
      intro l hlen c hc
      match l with
      | [] => cases hc
      | seed :: rest =>
          rw [mergeChains_cons] at hc
          rcases List.mem_cons.mp hc with rfl | hc'
          · constructor
            · rcases mergeClosure_low a seed rest with h | ⟨s, hs, h⟩
              · exact ⟨seed, List.mem_cons_self seed rest, h⟩
              · exact ⟨s, List.mem_cons_of_mem seed hs, h⟩
            · rcases mergeClosure_high a seed rest with h | ⟨s, hs, h⟩
              · exact ⟨seed, List.mem_cons_self seed rest, h⟩
              · exact ⟨s, List.mem_cons_of_mem seed hs, h⟩
          · have hle := mergeClosure_length_le a seed rest
            obtain ⟨⟨s1, hs1, he1⟩, ⟨s2, hs2, he2⟩⟩ :=
              ih (mergeClosure a seed rest).2 (by simp at hlen; omega) c hc'
            exact ⟨⟨s1, List.mem_cons_of_mem seed (mergeClosure_subset a seed rest s1 hs1), he1⟩,
              ⟨s2, List.mem_cons_of_mem seed (mergeClosure_subset a seed rest s2 hs2), he2⟩⟩

theorem mergeChains_pairwise (a : Axis) :
    ∀ (n : Nat) (l : List E3), l.length ≤ n →
      (mergeChains a l).Pairwise
        (fun c1 c2 => fwd a c1 c2 = false ∧ bwd a c1 c2 = false) := by
  intro n
  induction n with
  | zero =>
      intro l hlen
      have : l = [] := List.length_eq_zero.mp (Nat.le_zero.mp hlen)
      subst this
      exact List.Pairwise.nil
  | succ n ih =>
      intro l hlen
      match l with
      | [] => exact List.Pairwise.nil
      | seed :: rest =>
          rw [mergeChains_cons]
          have hle := mergeClosure_length_le a seed rest
          refine List.Pairwise.cons ?_ (ih (mergeClosure a seed rest).2 (by simp at hlen; omega))
          intro c2 hc2
          obtain ⟨⟨s1, hs1, he1⟩, ⟨s2, hs2, he2⟩⟩ :=
            mergeChains_ends a (mergeClosure a seed rest).2.length
              (mergeClosure a seed rest).2 le_rfl c2 hc2
          have hpost1 := (mergeClosure_post a seed rest s1 hs1).1
          have hpost2 := (mergeClosure_post a seed rest s2 hs2).2
          constructor
          · rw [fwd_eq] at hpost1 ⊢
            rw [he1]
            exact hpost1
          · rw [bwd_eq] at hpost2 ⊢
            rw [he2]
            exact hpost2

theorem mergeChains_fixed (a : Axis) :
    ∀ (n : Nat) (l : List E3), l.length ≤ n →
      l.Pairwise (fun c1 c2 => fwd a c1 c2 = false ∧ bwd a c1 c2 = false) →
      mergeChains a l = l := by
  intro n
  induction n with
  | zero =>
      intro l hlen _
      have : l = [] := List.length_eq_zero.mp (Nat.le_zero.mp hlen)
      subst this
      rfl
  | succ n ih =>
      intro l hlen hp
      match l with
      | [] => rfl
      | seed :: rest =>
          rw [mergeChains_cons]
          obtain ⟨hhead, htail⟩ := List.pairwise_cons.mp hp
          rw [mergeClosure_id a seed rest hhead]
          rw [ih rest (by simp at hlen; omega) htail]

theorem dedup_foldl_src {α : Type} [BEq α] [LawfulBEq α] :
    ∀ (l acc : List α) (x : α),
      x ∈ l.foldl (fun acc k => if acc.contains k then acc else acc ++ [k]) acc →
        x ∈ acc ∨ x ∈ l := by
  intro l
  induction l with
  | nil => intro acc x h; exact Or.inl h
  | cons y ys ih =>
      intro acc x h
      rcases ih _ x h with h' | h'
      · dsimp only [] at h'
        by_cases hc : acc.contains y = true
        · rw [if_pos hc] at h'
          exact Or.inl h'
        · rw [if_neg hc] at h'
          rcases List.mem_append.mp h' with h2 | h2
          · exact Or.inl h2
          · exact Or.inr (List.mem_cons.mpr (Or.inl (List.mem_singleton.mp h2)))
      · exact Or.inr (List.mem_cons_of_mem y h')

theorem dedup_foldl_nodup {α : Type} [BEq α] [LawfulBEq α] :
    ∀ (l acc : List α), acc.Nodup →
      (l.foldl (fun acc k => if acc.contains k then acc else acc ++ [k]) acc).Nodup := by
  intro l
  induction l with
  | nil => intro acc h; exact h
  | cons y ys ih =>
      intro acc h
      apply ih
      dsimp only []
      by_cases hc : acc.contains y = true
      · rw [if_pos hc]
        exact h
      · rw [if_neg hc]
        have hy : y ∉ acc := fun hm => hc (List.elem_eq_true_of_mem hm)
        simp [List.nodup_append, h, hy]

theorem groupKeysOf_nodup (edges : List E3) : (groupKeysOf edges).Nodup :=
  dedup_foldl_nodup _ [] List.nodup_nil

theorem groupKeysOf_mem_src (edges : List E3) (k : Axis × Int × Int)
    (h : k ∈ groupKeysOf edges) : ∃ e ∈ edges, keyOf e = some k := by
  unfold groupKeysOf at h
  rcases dedup_foldl_src _ [] k h with h' | h'
  · cases h'
  · exact List.mem_filterMap.mp h'

theorem filterMap_const_key (k : Axis × Int × Int) :
    ∀ (l : List E3), (∀ e ∈ l, keyOf e = some k) →
      l.filterMap keyOf = l.map (fun _ => k) := by
  intro l
  induction l with
  | nil => intro _; rfl
  | cons e es ih =>
      intro h
      rw [List.filterMap_cons, h e (List.mem_cons_self e es), List.map_cons]
      rw [ih (fun e2 he2 => h e2 (List.mem_cons_of_mem e he2))]

theorem filterMap_flatMap_keys {α : Type} (keys : List α) (f : α → List E3)
    (g : E3 → Option (Axis × Int × Int)) :
    (keys.flatMap f).filterMap g = keys.flatMap (fun k => (f k).filterMap g) := by
  induction keys with
  | nil => rfl
  | cons k ks ih => simp [List.flatMap_cons, List.filterMap_append, ih]

theorem filter_flatMap_keys {α : Type} (keys : List α) (f : α → List E3)
    (p : E3 → Bool) :
    (keys.flatMap f).filter p = keys.flatMap (fun k => (f k).filter p) := by
  induction keys with
  | nil => rfl
  | cons k ks ih => simp [List.flatMap_cons, List.filter_append, ih]

theorem flatMap_congr_of_mem {α β : Type} (l : List α) (f g : α → List β)
    (h : ∀ x ∈ l, f x = g x) : l.flatMap f = l.flatMap g := by
  induction l with
  | nil => rfl
  | cons x xs ih =>
      rw [List.flatMap_cons, List.flatMap_cons, h x (List.mem_cons_self x xs),
        ih (fun y hy => h y (List.mem_cons_of_mem x hy))]

theorem flatMap_single_key {α β : Type} [DecidableEq α] (ki : α) :
    ∀ (keys : List α) (f : α → List β), ki ∈ keys → keys.Nodup →
      (∀ k ∈ keys, k ≠ ki → f k = []) → keys.flatMap f = f ki := by
  intro keys
  induction keys with
  | nil => intro f h; cases h
  | cons k ks ih =>
      intro f hmem hnd hz
      obtain ⟨hk, hks⟩ := List.pairwise_cons.mp hnd
      rcases List.mem_cons.mp hmem with rfl | h'
      · rw [List.flatMap_cons]
        have hrest : ks.flatMap f = [] := by
          apply List.flatMap_eq_nil_iff.mpr
          intro k2 hk2
          exact hz k2 (List.mem_cons_of_mem _ hk2) (fun he => hk k2 hk2 he.symm)
        rw [hrest, List.append_nil]
      · rw [List.flatMap_cons, hz k (List.mem_cons_self k ks) (hk ki h'), List.nil_append]
        exact ih f h' hks (fun k2 hk2 => hz k2 (List.mem_cons_of_mem k hk2))

theorem dedup_absorb_block {α : Type} [BEq α] [LawfulBEq α] (k : α) :
    ∀ (l0 acc : List α), (∀ x ∈ l0, x = k) → k ∈ acc →
      l0.foldl (fun acc2 k2 => if acc2.contains k2 then acc2 else acc2 ++ [k2]) acc = acc := by
  intro l0
  induction l0 with
  | nil => intro acc _ _; rfl
  | cons y ys ih =>
      intro acc hall hk
      have hy : y = k := hall y (List.mem_cons_self y ys)
      subst hy
      rw [List.foldl_cons]
      rw [if_pos (List.elem_eq_true_of_mem hk)]
      exact ih acc (fun x hx => hall x (List.mem_cons_of_mem y hx)) hk

theorem dedup_fresh_block {α : Type} [BEq α] [LawfulBEq α] (k : α) :
    ∀ (l0 acc : List α), l0 ≠ [] → (∀ x ∈ l0, x = k) → k ∉ acc →
      l0.foldl (fun acc2 k2 => if acc2.contains k2 then acc2 else acc2 ++ [k2]) acc =
        acc ++ [k] := by
  intro l0
  match l0 with
  | [] => intro acc h; exact absurd rfl h
  | y :: ys =>
      intro acc _ hall hk
      have hy : y = k := hall y (List.mem_cons_self y ys)
      subst hy
      rw [List.foldl_cons]
      rw [if_neg (fun hc => hk (List.mem_of_elem_eq_true hc))]
      exact dedup_absorb_block y ys (acc ++ [y])
        (fun x hx => hall x (List.mem_cons_of_mem y hx))
        (List.mem_append_right _ (List.mem_singleton.mpr rfl))

theorem dedup_blocks {α : Type} [BEq α] [LawfulBEq α] :
    ∀ (keys : List α) (blockOf : α → List α) (acc : List α),
      keys.Nodup → (∀ k ∈ keys, k ∉ acc) →
      (∀ k ∈ keys, blockOf k ≠ [] ∧ ∀ x ∈ blockOf k, x = k) →
      (keys.flatMap blockOf).foldl
        (fun acc2 k2 => if acc2.contains k2 then acc2 else acc2 ++ [k2]) acc = acc ++ keys := by
  intro keys
  induction keys with
  | nil => intro blockOf acc _ _ _; simp
  | cons k ks ih =>
      intro blockOf acc hnd hdisj hblocks
      obtain ⟨hk, hks⟩ := List.pairwise_cons.mp hnd
      rw [List.flatMap_cons, List.foldl_append]
      obtain ⟨hne, hall⟩ := hblocks k (List.mem_cons_self k ks)
      rw [dedup_fresh_block k (blockOf k) acc hne hall (hdisj k (List.mem_cons_self k ks))]
      rw [ih blockOf (acc ++ [k]) hks ?disj
        (fun k2 hk2 => hblocks k2 (List.mem_cons_of_mem k hk2))]
      · simp
      case disj =>
        intro k2 hk2 hmem
        rcases List.mem_append.mp hmem with h2 | h2
        · exact hdisj k2 (List.mem_cons_of_mem k hk2) h2
        · exact hk k2 hk2 (List.mem_singleton.mp h2).symm

theorem mergeChains_ne_nil (a : Axis) (l : List E3) (h : l ≠ []) :
    mergeChains a l ≠ [] := by
  match l with
  | [] => exact absurd rfl h
  | seed :: rest =>
      rw [mergeChains_cons]
      exact List.cons_ne_nil _ _

/-- C9 (amended): on edge lists in the canonical orientation produced by the
face-culling deduplication (each edge strictly increasing along its single
varying axis), the collinear-merge pass is idempotent: the merged chains are
pairwise non-mergeable, keep their group keys, and a second pass returns them
unchanged. The unrestricted claim fails on reversed or degenerate edges. -/
theorem C9_merge_idempotent_on_canonical_edges (edges : List E3)
    (hc : ∀ e ∈ edges, canonicalOriented e = true) :
    mergePass (mergePass edges) = mergePass edges := by
  have hgoodF : ∀ k ∈ groupKeysOf edges,
      ∀ e ∈ edges.filter (fun e => keyOf e == some k), GoodSeg k e := by
    intro k _ e he
    obtain ⟨hmem, hp⟩ := List.mem_filter.mp he
    have hkey : keyOf e = some k := by simpa using hp
    exact GoodSeg_of_canonical e k (hc e hmem) hkey
  have hkeyC : ∀ k ∈ groupKeysOf edges,
      ∀ c ∈ mergeChains k.1 (edges.filter (fun e => keyOf e == some k)),
        keyOf c = some k := by
    intro k hk c hcm
    exact GoodSeg_keyOf k c
      (mergeChains_good k (edges.filter (fun e => keyOf e == some k)).length _ le_rfl
        (hgoodF k hk) c hcm)
  have hne : ∀ k ∈ groupKeysOf edges,
      mergeChains k.1 (edges.filter (fun e => keyOf e == some k)) ≠ [] := by
    intro k hk
    obtain ⟨e, he, hkey⟩ := groupKeysOf_mem_src edges k hk
    apply mergeChains_ne_nil
    intro hnil
    have hmem : e ∈ edges.filter (fun e => keyOf e == some k) :=
      List.mem_filter.mpr ⟨he, by simp [hkey]⟩
    rw [hnil] at hmem
    cases hmem
  have hfm : (mergePass edges).filterMap keyOf
      = (groupKeysOf edges).flatMap (fun k =>
          (mergeChains k.1 (edges.filter (fun e => keyOf e == some k))).map
            (fun _ => k)) := by
    show ((groupKeysOf edges).flatMap _).filterMap keyOf = _
    rw [filterMap_flatMap_keys]
    exact flatMap_congr_of_mem _ _ _ (fun k hk => filterMap_const_key k _ (hkeyC k hk))
  have hkeys : groupKeysOf (mergePass edges) = groupKeysOf edges := by
    have hd := dedup_blocks (groupKeysOf edges)
      (fun k => (mergeChains k.1 (edges.filter (fun e => keyOf e == some k))).map
        (fun _ => k))
      [] (groupKeysOf_nodup edges) (fun k _ h => absurd h (List.not_mem_nil k))
      (fun k hk => ⟨fun hnil => hne k hk (by simpa using hnil),
        fun x hx => by
          obtain ⟨a, _, hax⟩ := List.mem_map.mp hx
          exact hax.symm⟩)
    show ((mergePass edges).filterMap keyOf).foldl _ [] = groupKeysOf edges
    rw [hfm]
    rw [hd]
    simp
  have hfilter : ∀ k ∈ groupKeysOf edges,
      (mergePass edges).filter (fun e => keyOf e == some k)
        = mergeChains k.1 (edges.filter (fun e => keyOf e == some k)) := by
    intro k hk
    show ((groupKeysOf edges).flatMap _).filter _ = _
    rw [filter_flatMap_keys]
    rw [flatMap_single_key k (groupKeysOf edges) _ hk (groupKeysOf_nodup edges) ?zero]
    · apply List.filter_eq_self.mpr
      intro c hcm
      simp [hkeyC k hk c hcm]
    case zero =>
      intro k2 hk2 hne2
      apply List.filter_eq_nil_iff.mpr
      intro c hcm h
      have hck := hkeyC k2 hk2 c hcm
      rw [hck] at h
      exact hne2 (by simpa using h)
  show (groupKeysOf (mergePass edges)).flatMap (fun k =>
      mergeChains k.1 ((mergePass edges).filter (fun e => keyOf e == some k)))
    = mergePass edges
  rw [hkeys]
  rw [flatMap_congr_of_mem _ _
    (fun k => mergeChains k.1 (edges.filter (fun e => keyOf e == some k)))
    (fun k hk => by
      rw [hfilter k hk]
      exact mergeChains_fixed k.1
        (mergeChains k.1 (edges.filter (fun e => keyOf e == some k))).length _ le_rfl
        (mergeChains_pairwise k.1 (edges.filter (fun e => keyOf e == some k)).length _
          le_rfl))]
  rfl

/-!
Bounds tracking for the positioner: how `setBounds` affects lookups and
containment, and the primary-group containment invariant behind the
amended C3 claim.
-/

/-- Bounds lookup on a raw bounds list (the list form of `lookupBounds`). -/
def findBounds (bl : List (String × GBounds)) (g : String) : Option GBounds :=
  (bl.find? (fun p => p.1 == g)).map (fun p => p.2)

/-- `c` lies within `b` (propositional form used by the invariants). -/
def inBoundsP (b : GBounds) (c : Int × Int) : Prop :=
  b.minX ≤ c.1 ∧ c.1 ≤ b.maxX ∧ b.minY ≤ c.2 ∧ c.2 ≤ b.maxY

/-- `b` is contained in `b2`. -/
def subBounds (b b2 : GBounds) : Prop :=
  b2.minX ≤ b.minX ∧ b.maxX ≤ b2.maxX ∧ b2.minY ≤ b.minY ∧ b.maxY ≤ b2.maxY

/-- Every `updateGroupBounds` call logged so far put its cell inside the
logged group's currently recorded bounds. -/
def BoundsContain (st : PosState) : Prop :=
  ∀ g c, (g, c) ∈ st.groupCells → ∃ b, lookupBounds st g = some b ∧ inBoundsP b c

theorem inBoundsP_mono {b b2 : GBounds} {c : Int × Int}
    (h : inBoundsP b c) (hs : subBounds b b2) : inBoundsP b2 c := by
  obtain ⟨h1, h2, h3, h4⟩ := h
  obtain ⟨s1, s2, s3, s4⟩ := hs
  exact ⟨by omega, by omega, by omega, by omega⟩

theorem findBounds_setBounds_self (g : String) (x y : Int) :
    ∀ bl : List (String × GBounds),
      ∃ b', findBounds (setBounds bl g x y) g = some b' ∧ inBoundsP b' (x, y) := by
  intro bl
  induction bl with
  | nil =>
      refine ⟨⟨x, x, y, y⟩, by simp [setBounds, findBounds], ?_⟩
      show x ≤ x ∧ x ≤ x ∧ y ≤ y ∧ y ≤ y
      omega
  | cons p rest ih =>
      obtain ⟨g', b⟩ := p
      by_cases hg : (g' == g) = true
      · refine ⟨⟨min b.minX x, max b.maxX x, min b.minY y, max b.maxY y⟩, ?_, ?_⟩
        · simp [setBounds, hg, findBounds]
        · show min b.minX x ≤ x ∧ x ≤ max b.maxX x ∧ min b.minY y ≤ y ∧ y ≤ max b.maxY y
          omega
      · obtain ⟨b', hb', hin⟩ := ih
        refine ⟨b', ?_, hin⟩
        simpa [setBounds, hg, findBounds] using hb'

theorem findBounds_setBounds_mono (g g2 : String) (x y : Int) :
    ∀ (bl : List (String × GBounds)) (b : GBounds), findBounds bl g2 = some b →
      ∃ b2, findBounds (setBounds bl g x y) g2 = some b2 ∧ subBounds b b2 := by
  intro bl
  induction bl with
  | nil => intro b hb; cases hb
  | cons p rest ih =>
      obtain ⟨g', b0⟩ := p
      intro b hb
      by_cases hg2 : (g' == g2) = true
      · have hb0 : b = b0 := by
          simp [findBounds, hg2] at hb
          exact hb.symm
        subst hb0
        by_cases hg : (g' == g) = true
        · refine ⟨⟨min b.minX x, max b.maxX x, min b.minY y, max b.maxY y⟩, ?_, ?_⟩
          · simp [setBounds, hg, findBounds, hg2]
          · show min b.minX x ≤ b.minX ∧ b.maxX ≤ max b.maxX x ∧
              min b.minY y ≤ b.minY ∧ b.maxY ≤ max b.maxY y
            omega
        · refine ⟨b, ?_, ?_⟩
          · simp [setBounds, hg, findBounds, hg2]
          · show b.minX ≤ b.minX ∧ b.maxX ≤ b.maxX ∧ b.minY ≤ b.minY ∧ b.maxY ≤ b.maxY
            omega
      · have hb' : findBounds rest g2 = some b := by
          simpa [findBounds, hg2] using hb
        by_cases hg : (g' == g) = true
        · refine ⟨b, ?_, ?_⟩
          · simpa [setBounds, hg, findBounds, hg2] using hb'
          · show b.minX ≤ b.minX ∧ b.maxX ≤ b.maxX ∧ b.minY ≤ b.minY ∧ b.maxY ≤ b.maxY
            omega
        · obtain ⟨b2, hb2, hsub⟩ := ih b hb'
          refine ⟨b2, ?_, hsub⟩
          simpa [setBounds, hg, findBounds, hg2] using hb2

theorem boundsContain_updateGroupBounds (st : PosState) (g : String) (x y : Int)
    (h : BoundsContain st) : BoundsContain (updateGroupBounds st g x y) := by
  intro g2 c hmem
  have hmem' : (g2, c) ∈ ((g, (x, y)) :: st.groupCells) := hmem
  show ∃ b, findBounds (setBounds st.bounds g x y) g2 = some b ∧ inBoundsP b c
  rcases List.mem_cons.mp hmem' with heq | hold
  · have hg2 : g2 = g := congrArg Prod.fst heq
    have hc : c = (x, y) := congrArg Prod.snd heq
    rw [hg2, hc]
    exact findBounds_setBounds_self g x y st.bounds
  · obtain ⟨b, hb, hin⟩ := h g2 c hold
    obtain ⟨b2, hb2, hsub⟩ := findBounds_setBounds_mono g g2 x y st.bounds b hb
    exact ⟨b2, hb2, inBoundsP_mono hin hsub⟩

theorem boundsContain_placeStep (st : PosState) (g nid : String) (a b : Int)
    (h : BoundsContain st) :
    BoundsContain (addPlaced (updateGroupBounds (placeNode st nid a b) g a b) nid) :=
  boundsContain_updateGroupBounds (placeNode st nid a b) g a b h

theorem boundsContain_placeStepF (st : PosState) (g nid : String) (a b : Int)
    (h : BoundsContain st) :
    BoundsContain { addPlaced (updateGroupBounds (placeNode st nid a b) g a b) nid with
      usedFallback := true } :=
  boundsContain_updateGroupBounds (placeNode st nid a b) g a b h

theorem boundsContain_placeGroupFirst (isF : Bool) (st : PosState) (g nid : String)
    (h : BoundsContain st) : BoundsContain (placeGroupFirst isF st g nid).1 := by
  unfold placeGroupFirst
  split
  · exact boundsContain_placeStep st g nid 0 0 h
  · split
    · exact boundsContain_placeStep st g nid _ _ h
    · exact boundsContain_placeStepF st g nid _ _ h

theorem boundsContain_placeMember (st : PosState) (g : String) (fc : Int × Int)
    (prev : List (Int × Int)) (nid : String) (h : BoundsContain st) :
    BoundsContain (placeMember st g fc prev nid).1 := by
  unfold placeMember
  split
  · exact boundsContain_placeStep st g nid _ _ h
  · split
    · exact boundsContain_placeStep st g nid _ _ h
    · exact boundsContain_placeStepF st g nid _ _ h

theorem boundsContain_placeMembers (g : String) (fc : Int × Int) :
    ∀ (ms : List GNode) (st : PosState) (prev : List (Int × Int)), BoundsContain st →
      BoundsContain (placeMembers g fc st prev ms) := by
  intro ms
  induction ms with
  | nil => intro st prev h; exact h
  | cons m rest ih =>
      intro st prev h
      exact ih _ _ (boundsContain_placeMember st g fc prev m.id h)

theorem boundsContain_placeGroup (isF : Bool) (st : PosState) (g : String)
    (ms : List GNode) (h : BoundsContain st) : BoundsContain (placeGroup isF st g ms) := by
  match ms with
  | [] => exact h
  | m0 :: rest =>
      exact boundsContain_placeMembers g _ rest _ _
        (boundsContain_placeGroupFirst isF st g m0.id h)

theorem boundsContain_placeGroups :
    ∀ (l : List (String × List GNode)) (st : PosState) (isF : Bool), BoundsContain st →
      BoundsContain (placeGroups st isF l) := by
  intro l
  induction l with
  | nil => intro st isF h; exact h
  | cons gm rest ih =>
      intro st isF h
      show BoundsContain (if gm.2.isEmpty then placeGroups st isF rest
        else placeGroups (placeGroup isF st gm.1 gm.2) false rest)
      split
      · exact ih st isF h
      · exact ih _ false (boundsContain_placeGroup isF st gm.1 gm.2 h)

theorem boundsContain_placeUngrouped (links : List GLink) (st : PosState) (n : GNode)
    (h : BoundsContain st) : BoundsContain (placeUngrouped links st n) := by
  unfold placeUngrouped
  split
  · exact h
  · repeat' split
    all_goals try exact h
    all_goals dsimp only []
    all_goals repeat' split
    all_goals exact h

theorem boundsContain_placeUngroupedAll (links : List GLink) :
    ∀ (l : List GNode) (st : PosState), BoundsContain st →
      BoundsContain (placeUngroupedAll links st l) := by
  intro l
  induction l with
  | nil => intro st h; exact h
  | cons n rest ih =>
      intro st h
      exact ih _ (boundsContain_placeUngrouped links st n h)

/-- C3 (amended): containment holds for the primary group. Every bounds
update the positioner performs — exactly one per grouped node, against the
node's primary group — leaves its grid cell inside that group's final
recorded bounds: every logged (group, cell) pair of the run satisfies the
containment. For a group listed in a non-first position of a node's
membership list the containment can fail, as the counterexample shows. -/
theorem C3_primary_group_bounds_contain_cells (nodes : List GNode) (links : List GLink)
    (g : String) (c : Int × Int)
    (hmem : (g, c) ∈ (calculateGridPositions nodes links).groupCells) :
    ∃ b, lookupBounds (calculateGridPositions nodes links) g = some b ∧
      withinBounds b c.1 c.2 = true := by
  have h : BoundsContain (calculateGridPositions nodes links) := by
    unfold calculateGridPositions
    split
    · intro g2 c2 hc2; cases hc2
    · exact boundsContain_placeUngroupedAll links _ _
        (boundsContain_placeGroups _ initState true
          (fun g2 c2 hc2 => absurd hc2 (List.not_mem_nil _)))
  obtain ⟨b, hb, hin⟩ := h g c hmem
  refine ⟨b, hb, ?_⟩
  obtain ⟨h1, h2, h3, h4⟩ := hin
  simp [withinBounds, h1, h2, h3, h4]

/-- Witness for the amended C3 theorem: a single node in a single group is
placed at the origin, logged against its primary group, and the group's
final bounds contain the origin. -/
theorem C3_primary_group_bounds_contain_cells_witness :
    ("A", ((0 : Int), (0 : Int))) ∈
        (calculateGridPositions (buildNodes ["u"] [⟨"A", ["u"]⟩]) []).groupCells ∧
      ∃ b, lookupBounds (calculateGridPositions (buildNodes ["u"] [⟨"A", ["u"]⟩]) [])
            "A" = some b ∧
          withinBounds b (0 : Int) (0 : Int) = true :=
  ⟨by decide, C3_primary_group_bounds_contain_cells (buildNodes ["u"] [⟨"A", ["u"]⟩]) []
    "A" (0, 0) (by decide)⟩

/-- Witness for the amended C9 theorem at a concrete two-edge canonical
input: the two collinear voxel edges merge into one segment, and a second
pass leaves it unchanged. -/
theorem C9_merge_idempotent_on_canonical_edges_witness :
    (∀ e ∈ ([⟨0, 0, 0, 40, 0, 0⟩, ⟨40, 0, 0, 80, 0, 0⟩] : List E3),
        canonicalOriented e = true) ∧
      mergePass (mergePass ([⟨0, 0, 0, 40, 0, 0⟩, ⟨40, 0, 0, 80, 0, 0⟩] : List E3))
        = mergePass ([⟨0, 0, 0, 40, 0, 0⟩, ⟨40, 0, 0, 80, 0, 0⟩] : List E3) :=
  ⟨by decide, C9_merge_idempotent_on_canonical_edges _ (by decide)⟩

/-!
Spacing tracking for the positioner: the amended C2 claim. `setBounds`
appends a group's entry on first use and updates it in place afterwards, so
the bounds list records groups in placement order; every spacing-checked
placement avoids the buffered bounds of all groups already in the list,
which are final by then. The invariant below carries this through the run.
-/

/-- Every logged cell avoids the buffered bounds of every group that
entered the bounds list strictly earlier than the cell's group. -/
def AvoidEarlier (B : List (String × GBounds))
    (cells : List (String × (Int × Int))) : Prop :=
  ∀ g2 c, (g2, c) ∈ cells → ∀ bl1 g1 b1 bl2, B = bl1 ++ (g1, b1) :: bl2 →
    g2 ∈ bl2.map Prod.fst → withinBuffered b1 c.1 c.2 = false

/-- The spacing invariant on the positioner state components: bounds keys
are distinct, every logged group has a bounds entry, and — as long as no
placement used the spacing-ignoring fallback — logged cells avoid all
earlier groups' buffered bounds. -/
def GInvL (B : List (String × GBounds)) (cells : List (String × (Int × Int)))
    (flag : Bool) : Prop :=
  (B.map Prod.fst).Nodup ∧ (∀ p ∈ cells, p.1 ∈ B.map Prod.fst) ∧
    (flag = false → AvoidEarlier B cells)

def GInv (st : PosState) : Prop := GInvL st.bounds st.groupCells st.usedFallback

theorem snoc_decomp {α : Type} (A : List α) (a : α) (bl1 : List α) (x : α)
    (bl2 : List α) (h : A ++ [a] = bl1 ++ x :: bl2) :
    (bl1 = A ∧ x = a ∧ bl2 = []) ∨
      ∃ bl2', bl2 = bl2' ++ [a] ∧ A = bl1 ++ x :: bl2' := by
  rcases List.eq_nil_or_concat bl2 with rfl | ⟨bl2', a', rfl⟩
  · have h2 := List.append_inj' h (by simp)
    refine Or.inl ⟨h2.1.symm, ?_, rfl⟩
    have := h2.2
    simp at this
    exact this.symm
  · rw [List.concat_eq_append] at h
    have h' : A ++ [a] = (bl1 ++ x :: bl2') ++ [a'] := by
      simp only [List.append_assoc, List.cons_append]
      exact h
    have h2 := List.append_inj' h' (by simp)
    have ha : a = a' := by
      have := h2.2
      simp at this
      exact this
    refine Or.inr ⟨bl2', ?_, h2.1⟩
    rw [ha, List.concat_eq_append]

theorem setBounds_absent (g : String) (x y : Int) :
    ∀ bl : List (String × GBounds), g ∉ bl.map Prod.fst →
      setBounds bl g x y = bl ++ [(g, ⟨x, x, y, y⟩)] := by
  intro bl
  induction bl with
  | nil => intro _; rfl
  | cons p rest ih =>
      obtain ⟨g', b⟩ := p
      intro hg
      have hg' : g' ≠ g ∧ g ∉ rest.map Prod.fst := by
        rw [List.map_cons] at hg
        exact ⟨fun h => hg (by rw [h]; exact List.mem_cons_self _ _),
          fun h => hg (List.mem_cons_of_mem _ h)⟩
      have hne : (g' == g) = false := beq_eq_false_iff_ne.mpr hg'.1
      show (if (g' == g) = true then _ else (g', b) :: setBounds rest g x y) = _
      rw [hne]
      simp only [Bool.false_eq_true, if_false, List.cons_append]
      rw [ih hg'.2]

theorem setBounds_last (g : String) (x y : Int) :
    ∀ (bl0 : List (String × GBounds)) (bg : GBounds), g ∉ bl0.map Prod.fst →
      setBounds (bl0 ++ [(g, bg)]) g x y =
        bl0 ++ [(g, ⟨min bg.minX x, max bg.maxX x, min bg.minY y, max bg.maxY y⟩)] := by
  intro bl0
  induction bl0 with
  | nil =>
      intro bg _
      show (if (g == g) = true then _ else _) = _
      rw [if_pos (beq_self_eq_true g)]
      rfl
  | cons p rest ih =>
      obtain ⟨g', b⟩ := p
      intro bg hg
      have hg' : g' ≠ g ∧ g ∉ rest.map Prod.fst := by
        rw [List.map_cons] at hg
        exact ⟨fun h => hg (by rw [h]; exact List.mem_cons_self _ _),
          fun h => hg (List.mem_cons_of_mem _ h)⟩
      have hne : (g' == g) = false := beq_eq_false_iff_ne.mpr hg'.1
      show (if (g' == g) = true then _
        else (g', b) :: setBounds (rest ++ [(g, bg)]) g x y) = _
      rw [hne]
      simp only [Bool.false_eq_true, if_false, List.cons_append]
      rw [ih bg hg'.2]

theorem avoidEarlier_snoc_fresh (B : List (String × GBounds))
    (cells : List (String × (Int × Int))) (g : String) (bg : GBounds) (x y : Int)
    (hg : g ∉ B.map Prod.fst)
    (hcells : ∀ p ∈ cells, p.1 ∈ B.map Prod.fst)
    (hacc : ∀ p ∈ B, p.1 ≠ g → withinBuffered p.2 x y = false)
    (hav : AvoidEarlier B cells) :
    AvoidEarlier (B ++ [(g, bg)]) ((g, (x, y)) :: cells) := by
  intro g2 c hc bl1 g1 b1 bl2 hdec hg2
  rcases snoc_decomp B (g, bg) bl1 (g1, b1) bl2 hdec with ⟨h1, h2, h3⟩ | ⟨bl2', h1, h2⟩
  · subst h3
    exact absurd hg2 (by simp)
  · have hg1mem : (g1, b1) ∈ B := by
      rw [h2]
      exact List.mem_append_right _ (List.mem_cons_self _ _)
    rcases List.mem_cons.mp hc with heq | hold
    · have hcx : c = (x, y) := congrArg Prod.snd heq
      have hg1ne : g1 ≠ g := by
        intro hgg
        exact hg (hgg ▸ List.mem_map_of_mem Prod.fst hg1mem)
      rw [hcx]
      exact hacc (g1, b1) hg1mem hg1ne
    · have hg2B : g2 ∈ B.map Prod.fst := hcells (g2, c) hold
      have hg2ne : g2 ≠ g := fun hgg => hg (hgg ▸ hg2B)
      have hg2' : g2 ∈ bl2'.map Prod.fst := by
        rw [h1] at hg2
        rw [List.map_append] at hg2
        rcases List.mem_append.mp hg2 with h | h
        · exact h
        · exact absurd (by simpa using h) hg2ne
      exact hav g2 c hold bl1 g1 b1 bl2' h2 hg2'

theorem avoidEarlier_snoc_update (bl0 : List (String × GBounds))
    (cells : List (String × (Int × Int))) (g : String) (bg bg' : GBounds) (x y : Int)
    (hacc : ∀ p ∈ bl0, withinBuffered p.2 x y = false)
    (hav : AvoidEarlier (bl0 ++ [(g, bg)]) cells) :
    AvoidEarlier (bl0 ++ [(g, bg')]) ((g, (x, y)) :: cells) := by
  intro g2 c hc bl1 g1 b1 bl2 hdec hg2
  rcases snoc_decomp bl0 (g, bg') bl1 (g1, b1) bl2 hdec with ⟨h1, h2, h3⟩ | ⟨bl2', h1, h2⟩
  · subst h3
    exact absurd hg2 (by simp)
  · have hg1mem : (g1, b1) ∈ bl0 := by
      rw [h2]
      exact List.mem_append_right _ (List.mem_cons_self _ _)
    rcases List.mem_cons.mp hc with heq | hold
    · have hcx : c = (x, y) := congrArg Prod.snd heq
      rw [hcx]
      exact hacc (g1, b1) hg1mem
    · have hdec' : bl0 ++ [(g, bg)] = bl1 ++ (g1, b1) :: (bl2' ++ [(g, bg)]) := by
        rw [h2]
        simp only [List.append_assoc, List.cons_append]
    -- the old bounds list decomposes at the same spot with the same keys
      have hg2'' : g2 ∈ (bl2' ++ [(g, bg)]).map Prod.fst := by
        rw [h1] at hg2
        rw [List.map_append] at hg2 ⊢
        rcases List.mem_append.mp hg2 with h | h
        · exact List.mem_append_left _ h
        · exact List.mem_append_right _ (by simpa using h)
      exact hav g2 c hold bl1 g1 b1 (bl2' ++ [(g, bg)]) hdec' hg2''

theorem ginvL_update_absent (B : List (String × GBounds))
    (cells : List (String × (Int × Int))) (flag : Bool) (g : String) (x y : Int)
    (hinv : GInvL B cells flag) (hg : g ∉ B.map Prod.fst)
    (hacc : flag = false → ∀ p ∈ B, p.1 ≠ g → withinBuffered p.2 x y = false) :
    GInvL (setBounds B g x y) ((g, (x, y)) :: cells) flag ∧
      setBounds B g x y = B ++ [(g, ⟨x, x, y, y⟩)] := by
  obtain ⟨hnd, hcl, hav⟩ := hinv
  have hsb := setBounds_absent g x y B hg
  refine ⟨⟨?_, ?_, ?_⟩, hsb⟩
  · rw [hsb, List.map_append]
    simp [List.nodup_append, hnd, hg]
  · intro p hp
    rw [hsb, List.map_append]
    rcases List.mem_cons.mp hp with heq | hold
    · rw [heq]
      exact List.mem_append_right _ (by simp)
    · exact List.mem_append_left _ (hcl p hold)
  · intro hf
    rw [hsb]
    exact avoidEarlier_snoc_fresh B cells g ⟨x, x, y, y⟩ x y hg hcl (hacc hf) (hav hf)

theorem ginvL_update_last (B : List (String × GBounds))
    (cells : List (String × (Int × Int))) (flag : Bool) (g : String) (x y : Int)
    (bl0 : List (String × GBounds)) (bg : GBounds)
    (hinv : GInvL B cells flag) (hB : B = bl0 ++ [(g, bg)])
    (hacc : flag = false → ∀ p ∈ B, p.1 ≠ g → withinBuffered p.2 x y = false) :
    GInvL (setBounds B g x y) ((g, (x, y)) :: cells) flag ∧
      setBounds B g x y =
        bl0 ++ [(g, ⟨min bg.minX x, max bg.maxX x, min bg.minY y, max bg.maxY y⟩)] := by
  obtain ⟨hnd, hcl, hav⟩ := hinv
  have hg0 : g ∉ bl0.map Prod.fst := by
    rw [hB, List.map_append] at hnd
    have := List.Nodup.sublist (List.sublist_append_left _ _) hnd
    intro hmem
    have hdisj := (List.nodup_append.mp hnd).2.2
    exact hdisj hmem (by simp)
  have hsb : setBounds B g x y =
      bl0 ++ [(g, ⟨min bg.minX x, max bg.maxX x, min bg.minY y, max bg.maxY y⟩)] := by
    rw [hB]
    exact setBounds_last g x y bl0 bg hg0
  have hkeys : (setBounds B g x y).map Prod.fst = B.map Prod.fst := by
    rw [hsb, hB]
    simp
  refine ⟨⟨?_, ?_, ?_⟩, hsb⟩
  · rw [hkeys]
    exact hnd
  · intro p hp
    rw [hkeys]
    rcases List.mem_cons.mp hp with heq | hold
    · rw [heq, hB, List.map_append]
      exact List.mem_append_right _ (by simp)
    · exact hcl p hold
  · intro hf
    rw [hsb]
    refine avoidEarlier_snoc_update bl0 cells g bg _ x y ?_ (by rw [← hB]; exact hav hf)
    intro p hp
    refine hacc hf p (by rw [hB]; exact List.mem_append_left _ hp) ?_
    intro hpg
    exact hg0 (hpg ▸ List.mem_map_of_mem Prod.fst hp)

theorem findSome?_mem {α β : Type} (f : α → Option β) :
    ∀ (l : List α) (b : β), l.findSome? f = some b → ∃ a ∈ l, f a = some b := by
  intro l
  induction l with
  | nil =>
      intro b h
      rw [List.findSome?_nil] at h
      cases h
  | cons x xs ih =>
      intro b h
      rw [List.findSome?_cons] at h
      cases hfx : f x with
      | some b2 =>
          rw [hfx] at h
          exact ⟨x, List.mem_cons_self x xs, by rw [hfx]; exact h⟩
      | none =>
          rw [hfx] at h
          obtain ⟨a, ha, hfa⟩ := ih b h
          exact ⟨a, List.mem_cons_of_mem x ha, hfa⟩

theorem searchRings_accept (lo hi : Nat) (cx cy : Int) (accept : Int → Int → Bool)
    (c : Int × Int) (h : searchRings lo hi cx cy accept = some c) :
    accept c.1 c.2 = true := by
  unfold searchRings at h
  obtain ⟨r, _, hfr⟩ := findSome?_mem _ _ _ h
  cases hfind : (ringCells r).find? (fun c0 => accept (cx + c0.1) (cy + c0.2)) with
  | none =>
      rw [hfind] at hfr
      cases hfr
  | some c0 =>
      rw [hfind] at hfr
      have hacc := List.find?_some hfind
      have hc : c = (cx + c0.1, cy + c0.2) := by simpa using hfr.symm
      rw [hc]
      exact hacc

theorem respects_spacing_avoid (st : PosState) (g : String) (x y : Int)
    (h : respectsGroupSpacing st (some g) x y = true) :
    ∀ p ∈ st.bounds, p.1 ≠ g → withinBuffered p.2 x y = false := by
  intro p hp hne
  have hall := List.all_eq_true.mp h p hp
  cases hor : (some g == some p.1) with
  | true =>
      have hgp : g = p.1 := by simpa using hor
      exact absurd hgp.symm hne
  | false =>
      rw [hor] at hall
      simpa using hall

theorem prevScan_accept (st : PosState) (g : String) (prev : List (Int × Int))
    (c : Int × Int)
    (h : prev.findSome? (fun mc => offsets8.findSome? (fun o =>
        if acceptGroup st g (mc.1 + o.1) (mc.2 + o.2) = true then
          some (mc.1 + o.1, mc.2 + o.2)
        else none)) = some c) :
    acceptGroup st g c.1 c.2 = true := by
  obtain ⟨mc, _, hmc⟩ := findSome?_mem _ prev c h
  obtain ⟨o, _, ho⟩ := findSome?_mem _ offsets8 c hmc
  by_cases hac : acceptGroup st g (mc.1 + o.1) (mc.2 + o.2) = true
  · rw [if_pos hac] at ho
    have hc : c = (mc.1 + o.1, mc.2 + o.2) := by simpa using ho.symm
    rw [hc]
    exact hac
  · rw [if_neg hac] at ho
    cases ho

theorem insertDescBy_perm {α : Type} (k : α → Nat) (x : α) :
    ∀ l : List α, (insertDescBy k x l).Perm (x :: l) := by
  intro l
  induction l with
  | nil => exact List.Perm.refl _
  | cons y ys ih =>
      show (if k x ≤ k y then y :: insertDescBy k x ys else x :: y :: ys).Perm (x :: y :: ys)
      split
      · exact (ih.cons y).trans (List.Perm.swap x y ys)
      · exact List.Perm.refl _

theorem stableSortDescBy_perm_aux {α : Type} (k : α → Nat) :
    ∀ (l acc : List α),
      (l.foldl (fun acc x => insertDescBy k x acc) acc).Perm (l.reverse ++ acc) := by
  intro l
  induction l with
  | nil =>
      intro acc
      simp only [List.foldl_nil, List.reverse_nil, List.nil_append]
      exact List.Perm.refl acc
  | cons x xs ih =>
      intro acc
      show (xs.foldl _ (insertDescBy k x acc)).Perm ((x :: xs).reverse ++ acc)
      have h2 : (xs.reverse ++ insertDescBy k x acc).Perm (xs.reverse ++ (x :: acc)) :=
        List.Perm.append_left _ (insertDescBy_perm k x acc)
      have h3 : xs.reverse ++ (x :: acc) = (x :: xs).reverse ++ acc := by simp
      exact ((ih (insertDescBy k x acc)).trans h2).trans (List.Perm.of_eq h3)

theorem stableSortDescBy_perm {α : Type} (k : α → Nat) (l : List α) :
    (stableSortDescBy k l).Perm l := by
  have h := stableSortDescBy_perm_aux k l []
  rw [List.append_nil] at h
  exact h.trans (List.reverse_perm l)

theorem sortedGroupIds_nodup (nodes : List GNode) (links : List GLink) :
    (sortedGroupIds nodes links).Nodup := by
  have hd : (dedupFirst (nodes.filterMap primaryOf)).Nodup :=
    dedup_foldl_nodup (nodes.filterMap primaryOf) [] List.nodup_nil
  exact ((stableSortDescBy_perm (groupDegree nodes links)
    (dedupFirst (nodes.filterMap primaryOf))).nodup_iff).mpr hd

theorem ginv_toFlag (st : PosState) (h : GInv st) :
    GInvL st.bounds st.groupCells true :=
  ⟨h.1, h.2.1, fun hf => absurd hf (by simp)⟩

theorem ginv_stepA_absent (st : PosState) (g nid : String) (a b : Int)
    (hinv : GInv st) (hg : g ∉ st.bounds.map Prod.fst)
    (hacc : respectsGroupSpacing st (some g) a b = true) :
    GInv (addPlaced (updateGroupBounds (placeNode st nid a b) g a b) nid) ∧
      (addPlaced (updateGroupBounds (placeNode st nid a b) g a b) nid).bounds
        = st.bounds ++ [(g, ⟨a, a, b, b⟩)] :=
  ginvL_update_absent st.bounds st.groupCells st.usedFallback g a b hinv hg
    (fun _ => respects_spacing_avoid st g a b hacc)

theorem ginv_stepB_absent (st : PosState) (g nid : String) (a b : Int)
    (hinv : GInv st) (hg : g ∉ st.bounds.map Prod.fst) :
    GInv { addPlaced (updateGroupBounds (placeNode st nid a b) g a b) nid with
        usedFallback := true } ∧
      ({ addPlaced (updateGroupBounds (placeNode st nid a b) g a b) nid with
        usedFallback := true } : PosState).bounds = st.bounds ++ [(g, ⟨a, a, b, b⟩)] :=
  ginvL_update_absent st.bounds st.groupCells true g a b (ginv_toFlag st hinv) hg
    (fun hf => absurd hf (by simp))

theorem ginv_stepA_last (st : PosState) (g nid : String) (a b : Int)
    (bl0 : List (String × GBounds)) (bg : GBounds)
    (hinv : GInv st) (hB : st.bounds = bl0 ++ [(g, bg)])
    (hacc : respectsGroupSpacing st (some g) a b = true) :
    GInv (addPlaced (updateGroupBounds (placeNode st nid a b) g a b) nid) ∧
      (addPlaced (updateGroupBounds (placeNode st nid a b) g a b) nid).bounds
        = bl0 ++ [(g, ⟨min bg.minX a, max bg.maxX a, min bg.minY b, max bg.maxY b⟩)] :=
  ginvL_update_last st.bounds st.groupCells st.usedFallback g a b bl0 bg hinv hB
    (fun _ => respects_spacing_avoid st g a b hacc)

theorem ginv_stepB_last (st : PosState) (g nid : String) (a b : Int)
    (bl0 : List (String × GBounds)) (bg : GBounds)
    (hinv : GInv st) (hB : st.bounds = bl0 ++ [(g, bg)]) :
    GInv { addPlaced (updateGroupBounds (placeNode st nid a b) g a b) nid with
        usedFallback := true } ∧
      ({ addPlaced (updateGroupBounds (placeNode st nid a b) g a b) nid with
        usedFallback := true } : PosState).bounds
        = bl0 ++ [(g, ⟨min bg.minX a, max bg.maxX a, min bg.minY b, max bg.maxY b⟩)] :=
  ginvL_update_last st.bounds st.groupCells true g a b bl0 bg (ginv_toFlag st hinv) hB
    (fun hf => absurd hf (by simp))

theorem ginv_placeMember (st : PosState) (g : String) (fc : Int × Int)
    (prev : List (Int × Int)) (nid : String) (bl0 : List (String × GBounds)) (bg : GBounds)
    (hinv : GInv st) (hB : st.bounds = bl0 ++ [(g, bg)]) :
    GInv (placeMember st g fc prev nid).1 ∧
      ∃ bg', (placeMember st g fc prev nid).1.bounds = bl0 ++ [(g, bg')] := by
  unfold placeMember
  split
  next c heq =>
    have hac := prevScan_accept st g prev c heq
    rw [acceptGroup, Bool.and_eq_true] at hac
    have hr := hac.2
    obtain ⟨h1, h2⟩ := ginv_stepA_last st g nid c.1 c.2 bl0 bg hinv hB hr
    exact ⟨h1, _, h2⟩
  next =>
    split
    next c heq2 =>
      have hac : acceptGroup st g c.1 c.2 = true :=
        searchRings_accept 1 50 fc.1 fc.2 _ c heq2
      rw [acceptGroup, Bool.and_eq_true] at hac
      have hr := hac.2
      obtain ⟨h1, h2⟩ := ginv_stepA_last st g nid c.1 c.2 bl0 bg hinv hB hr
      exact ⟨h1, _, h2⟩
    next =>
      obtain ⟨h1, h2⟩ := ginv_stepB_last st g nid
        (findNearestAvailablePosition st fc.1 fc.2).1
        (findNearestAvailablePosition st fc.1 fc.2).2 bl0 bg hinv hB
      exact ⟨h1, _, h2⟩

theorem ginv_placeMembers (g : String) (fc : Int × Int) :
    ∀ (ms : List GNode) (st : PosState) (prev : List (Int × Int))
      (bl0 : List (String × GBounds)) (bg : GBounds),
      GInv st → st.bounds = bl0 ++ [(g, bg)] →
      GInv (placeMembers g fc st prev ms) ∧
        ∃ bg', (placeMembers g fc st prev ms).bounds = bl0 ++ [(g, bg')] := by
  intro ms
  induction ms with
  | nil =>
      intro st prev bl0 bg hinv hB
      exact ⟨hinv, bg, hB⟩
  | cons m rest ih =>
      intro st prev bl0 bg hinv hB
      obtain ⟨h1, bg', h2⟩ := ginv_placeMember st g fc prev m.id bl0 bg hinv hB
      exact ih (placeMember st g fc prev m.id).1
        (prev ++ [(placeMember st g fc prev m.id).2]) bl0 bg' h1 h2

theorem ginv_placeGroupFirst (isF : Bool) (st : PosState) (g nid : String)
    (hinv : GInv st) (hg : g ∉ st.bounds.map Prod.fst)
    (hfirst : isF = true → st.bounds = []) :
    GInv (placeGroupFirst isF st g nid).1 ∧
      ∃ bg, (placeGroupFirst isF st g nid).1.bounds = st.bounds ++ [(g, bg)] := by
  unfold placeGroupFirst
  split
  next hisF =>
    have hr : respectsGroupSpacing st (some g) 0 0 = true := by
      unfold respectsGroupSpacing
      rw [hfirst hisF]
      rfl
    obtain ⟨h1, h2⟩ := ginv_stepA_absent st g nid 0 0 hinv hg hr
    exact ⟨h1, _, h2⟩
  next =>
    split
    next c heq =>
      have hac : acceptGroup st g c.1 c.2 = true :=
        searchRings_accept 4 100 0 0 _ c heq
      rw [acceptGroup, Bool.and_eq_true] at hac
      have hr := hac.2
      obtain ⟨h1, h2⟩ := ginv_stepA_absent st g nid c.1 c.2 hinv hg hr
      exact ⟨h1, _, h2⟩
    next =>
      obtain ⟨h1, h2⟩ := ginv_stepB_absent st g nid
        (findNearestAvailablePosition st 0 0).1
        (findNearestAvailablePosition st 0 0).2 hinv hg
      exact ⟨h1, _, h2⟩

theorem ginv_placeGroup (isF : Bool) (st : PosState) (g : String) (ms : List GNode)
    (hinv : GInv st) (hg : g ∉ st.bounds.map Prod.fst)
    (hfirst : isF = true → st.bounds = []) :
    GInv (placeGroup isF st g ms) ∧
      ((placeGroup isF st g ms).bounds.map Prod.fst = st.bounds.map Prod.fst ∨
        (placeGroup isF st g ms).bounds.map Prod.fst = st.bounds.map Prod.fst ++ [g]) := by
  match ms with
  | [] => exact ⟨hinv, Or.inl rfl⟩
  | m0 :: rest =>
      obtain ⟨h1, bg, h2⟩ := ginv_placeGroupFirst isF st g m0.id hinv hg hfirst
      obtain ⟨h3, bg', h4⟩ := ginv_placeMembers g (placeGroupFirst isF st g m0.id).2 rest
        (placeGroupFirst isF st g m0.id).1 [(placeGroupFirst isF st g m0.id).2]
        st.bounds bg h1 h2
      refine ⟨h3, Or.inr ?_⟩
      have h5 : (placeGroup isF st g (m0 :: rest)).bounds = st.bounds ++ [(g, bg')] := h4
      rw [h5, List.map_append]
      rfl

theorem ginv_placeGroups :
    ∀ (l : List (String × List GNode)) (st : PosState) (isF : Bool),
      GInv st → (l.map Prod.fst).Nodup →
      (∀ g ∈ l.map Prod.fst, g ∉ st.bounds.map Prod.fst) →
      (isF = true → st.bounds = []) →
      GInv (placeGroups st isF l) := by
  intro l
  induction l with
  | nil => intro st isF hinv _ _ _; exact hinv
  | cons gm rest ih =>
      intro st isF hinv hnd hdisj hfirst
      rw [List.map_cons] at hnd
      obtain ⟨hgm, hndr⟩ := List.nodup_cons.mp hnd
      have hdisjr : ∀ g ∈ rest.map Prod.fst, g ∉ st.bounds.map Prod.fst :=
        fun g hgmem => hdisj g (by rw [List.map_cons]; exact List.mem_cons_of_mem _ hgmem)
      show GInv (if gm.2.isEmpty then placeGroups st isF rest
        else placeGroups (placeGroup isF st gm.1 gm.2) false rest)
      split
      · exact ih st isF hinv hndr hdisjr hfirst
      · have hggm : gm.1 ∉ st.bounds.map Prod.fst :=
          hdisj gm.1 (by rw [List.map_cons]; exact List.mem_cons_self _ _)
        obtain ⟨h1, hk⟩ := ginv_placeGroup isF st gm.1 gm.2 hinv hggm hfirst
        refine ih _ false h1 hndr ?_ (fun h => absurd h (by simp))
        intro g hgmem hmem
        rcases hk with hk | hk
        · rw [hk] at hmem
          exact hdisjr g hgmem hmem
        · rw [hk] at hmem
          rcases List.mem_append.mp hmem with hm | hm
          · exact hdisjr g hgmem hm
          · have hggm2 : g = gm.1 := by simpa using hm
            exact hgm (hggm2 ▸ hgmem)

theorem ginv_placeUngrouped (links : List GLink) (st : PosState) (n : GNode)
    (h : GInv st) : GInv (placeUngrouped links st n) := by
  unfold placeUngrouped
  split
  · exact h
  · repeat' split
    all_goals try exact h
    all_goals dsimp only []
    all_goals repeat' split
    all_goals exact h

theorem ginv_placeUngroupedAll (links : List GLink) :
    ∀ (l : List GNode) (st : PosState), GInv st →
      GInv (placeUngroupedAll links st l) := by
  intro l
  induction l with
  | nil => intro st h; exact h
  | cons n rest ih =>
      intro st h
      exact ih _ (ginv_placeUngrouped links st n h)

theorem ginv_calculateGridPositions (nodes : List GNode) (links : List GLink) :
    GInv (calculateGridPositions nodes links) := by
  unfold calculateGridPositions
  split
  · exact ⟨List.nodup_nil, fun p hp => absurd hp (List.not_mem_nil p),
      fun _ g2 c hc _ _ _ _ _ _ => absurd hc (List.not_mem_nil _)⟩
  · apply ginv_placeUngroupedAll
    apply ginv_placeGroups _ initState true
      ⟨List.nodup_nil, fun p hp => absurd hp (List.not_mem_nil p),
        fun _ g2 c hc _ _ _ _ _ _ => absurd hc (List.not_mem_nil _)⟩
      ?_ ?_ (fun _ => rfl)
    · have hmm : ∀ l : List String,
          (l.map (fun g => (g, sortedMembers nodes links g))).map Prod.fst = l := by
        intro l
        induction l with
        | nil => rfl
        | cons a as ih => simp only [List.map_cons]; rw [ih]
      rw [hmm]
      exact sortedGroupIds_nodup nodes links
    · intro g _ hmem
      exact absurd hmem (List.not_mem_nil g)

/-- C2 (amended): spacing is enforced only against groups placed earlier,
and only while no placement has fallen back to the spacing-ignoring
nearest-free-cell search. The bounds list records groups in placement
order, and earlier groups' bounds are final once a later group starts, so
in a fallback-free run every cell of a later-placed group lies outside the
spacing-buffered bounds of every earlier-placed group. The claim's
unconditional, symmetric non-overlap of final buffered bounds is false, as
the counterexample shows. -/
theorem C2_cells_avoid_earlier_group_bounds (nodes : List GNode) (links : List GLink)
    (hnf : (calculateGridPositions nodes links).usedFallback = false)
    (g2 : String) (c : Int × Int)
    (hcell : (g2, c) ∈ (calculateGridPositions nodes links).groupCells)
    (g1 : String) (b1 : GBounds) (e2 : String × GBounds)
    (hprec : PrecedesIn (calculateGridPositions nodes links).bounds (g1, b1) e2)
    (he2 : e2.1 = g2) :
    withinBuffered b1 c.1 c.2 = false := by
  obtain ⟨-, -, hav⟩ := ginv_calculateGridPositions nodes links
  obtain ⟨l1, l2, hdec, hm⟩ := hprec
  exact hav hnf g2 c hcell l1 g1 b1 l2 hdec (he2 ▸ List.mem_map_of_mem Prod.fst hm)

/-- Witness for the amended C2 theorem: two one-node groups with no links;
group B is placed after group A without any fallback, and B's logged cell
(-4, -4) lies outside A's buffered bounds. -/
theorem C2_cells_avoid_earlier_group_bounds_witness :
    ((calculateGridPositions [⟨"u", ["A"]⟩, ⟨"v", ["B"]⟩] []).usedFallback = false) ∧
      ("B", ((-4 : Int), (-4 : Int))) ∈
        (calculateGridPositions [⟨"u", ["A"]⟩, ⟨"v", ["B"]⟩] []).groupCells ∧
      PrecedesIn (calculateGridPositions [⟨"u", ["A"]⟩, ⟨"v", ["B"]⟩] []).bounds
        ("A", ⟨0, 0, 0, 0⟩) ("B", ⟨-4, -4, -4, -4⟩) ∧
      ("B", (⟨-4, -4, -4, -4⟩ : GBounds)).1 = "B" ∧
      withinBuffered ⟨0, 0, 0, 0⟩ (-4) (-4) = false :=
  ⟨by decide, by decide,
    ⟨[], [("B", ⟨-4, -4, -4, -4⟩)], by decide, by decide⟩, rfl,
    C2_cells_avoid_earlier_group_bounds [⟨"u", ["A"]⟩, ⟨"v", ["B"]⟩] [] (by decide)
      "B" (-4, -4) (by decide) "A" ⟨0, 0, 0, 0⟩ ("B", ⟨-4, -4, -4, -4⟩)
      ⟨[], [("B", ⟨-4, -4, -4, -4⟩)], by decide, by decide⟩ rfl⟩

end NetViz
